import Mathlib

/-!
Verification development for the VictoriaMetrics log-query stats core
(src/lib/logstorage: pipes.go, stats_count.go, stats_uniq.go).

Go byte strings are modelled as `List Nat`; Go maps `map[string]struct{}`
as `Finset Bytes`; group maps `map[string]*statsPipeGroup` as association
lists in insertion order; code that can reach a `logger.Panicf` branch or a
slice-index panic returns `Option`.
-/

set_option autoImplicit false

namespace VLStats

/-- Byte strings (Go `string` / `[]byte` values). -/
abbrev Bytes := List Nat

/-- Structural worker for `uvarintEnc`: the fuel only serves Lean structural
recursion and is instantiated with a bound on the value, which strictly
shrinks at every division by 128, so the fuel-exhausted arm is unreachable. -/
def uvarintEncAux : Nat → Nat → Bytes
  | 0, n => [n % 128]
  | fuel + 1, n =>
    if n < 128 then [n] else (n % 128 + 128) :: uvarintEncAux fuel (n / 128)

/-- Modelled from the spec (4.2): the varint length encoding used by
`encoding.MarshalBytes`. This is the standard unsigned LEB128 varint (7-bit
groups, little-endian, high bit marks continuation) used by the Go binary
package; the encoder itself lives outside this repository. -/
def uvarintEnc (n : Nat) : Bytes :=
  uvarintEncAux n n

/-- Modelled from the spec (4.2): varint decoder, inverse of `uvarintEnc`. -/
def uvarintDec : Bytes → Option (Nat × Bytes)
  | [] => none
  | b :: rest =>
    if b < 128 then some (b, rest)
    else
      match uvarintDec rest with
      | some (n, t) => some (b % 128 + 128 * n, t)
      | none => none

/-- Modelled from the spec (4.2): `encoding.MarshalBytes(dst, b)` appends a
varint length followed by the raw bytes; this returns the appended chunk. -/
def marshalBytes (v : Bytes) : Bytes :=
  uvarintEnc v.length ++ v

/-- Modelled from the spec (4.2): `encoding.UnmarshalBytes` reads a varint
length, then that many bytes, returning `(value, tail)`; `none` models the
error return. -/
def unmarshalBytes (b : Bytes) : Option (Bytes × Bytes) :=
  match uvarintDec b with
  | none => none
  | some (n, t) => if n ≤ t.length then some (t.take n, t.drop n) else none

/-- The `for len(keyBuf) > 0` loop of `statsPipeProcessor.flush` that decodes
a group key back into by-field values; the fuel argument only serves Lean
termination and is instantiated with the buffer length, which strictly
decreases at every successful `unmarshalBytes` step. -/
def unmarshalAllFuel : Nat → Bytes → Option (List Bytes)
  | _, [] => some []
  | 0, _ :: _ => none
  | fuel + 1, b =>
    match unmarshalBytes b with
    | none => none
    | some (v, t) => (unmarshalAllFuel fuel t).map (v :: ·)

/-- Decode a whole key buffer into the list of marshalled values. -/
def unmarshalAll (b : Bytes) : Option (List Bytes) :=
  unmarshalAllFuel b.length b

/-- Group-key encoding used by `statsPipeProcessor.writeBlock` and by the
multi-field uniq paths: the concatenation of the `marshalBytes` chunks of the
field values, in field order. -/
def encodeTuple (vs : List Bytes) : Bytes :=
  (vs.map marshalBytes).flatten

/-- Modelled from the spec (4.2): `encoding.MarshalInt64` appends the
fixed-width 8-byte big-endian encoding of the two's-complement value. -/
def marshalInt64 (t : Int) : Bytes :=
  let u := (t % (2 : Int) ^ 64).toNat
  [u / 2 ^ 56 % 256, u / 2 ^ 48 % 256, u / 2 ^ 40 % 256, u / 2 ^ 32 % 256,
   u / 2 ^ 24 % 256, u / 2 ^ 16 % 256, u / 2 ^ 8 % 256, u % 256]

/-- Structural worker for `decimalBytes`; as with `uvarintEncAux` the fuel
is a bound on the value and the exhausted arm is unreachable. -/
def decimalBytesAux : Nat → Nat → Bytes
  | 0, n => [48 + n % 10]
  | fuel + 1, n =>
    if n < 10 then [48 + n] else decimalBytesAux fuel (n / 10) ++ [48 + n % 10]

/-- The ASCII decimal rendering produced by `strconv.FormatUint(n, 10)`. -/
def decimalBytes (n : Nat) : Bytes :=
  decimalBytesAux n n

/-- Column physical types of the block reader. Modelled from the spec (3):
the numeric tag constants live in values_encoder.go outside src; the spec
only relies on the tags of distinct types being distinct bytes, and the
numbering here follows the upstream enum order with `unknown` as the zero
value. -/
inductive ValueType where
  | unknown
  | string
  | dict
  | uint8
  | uint16
  | uint32
  | uint64
  | float64
  | ipv4
  | timestampISO8601
deriving DecidableEq, Fintype

/-- The byte written for a value type tag. -/
def ValueType.toByte : ValueType → Nat
  | .unknown => 0
  | .string => 1
  | .dict => 2
  | .uint8 => 3
  | .uint16 => 4
  | .uint32 => 5
  | .uint64 => 6
  | .float64 => 7
  | .ipv4 => 8
  | .timestampISO8601 => 9

/-- Single-field uniq key for a `time` column (stats_uniq.go line 104):
a leading `1` byte followed by the fixed-width timestamp. -/
def uniqTimeKey (t : Int) : Bytes :=
  1 :: marshalInt64 t

/-- Single-field uniq key for a non-time column (stats_uniq.go lines 122,
139, 163): a leading `0` byte, the value-type tag byte, then the payload. -/
def uniqTypedKey (vt : ValueType) (payload : Bytes) : Bytes :=
  0 :: vt.toByte :: payload

/-- A column of a `blockResult` (block_result.go is outside src; the field
set is modelled from the spec (3, 4.1)). `values` holds the decoded textual
values: the per-type decoders also live outside src, so decoded values are
carried as data in the column itself, and `encodedValues` carries the raw
physical-layer byte strings. -/
structure BlockResultColumn where
  name : Bytes
  isConst : Bool
  isTime : Bool
  valueType : ValueType
  dictValues : List Bytes
  encodedValues : List Bytes
  values : List Bytes
deriving DecidableEq

/-- The columnar batch seen by the stats processors of stats_uniq.go and
stats_count.go. -/
structure blockResult where
  timestamps : List Int
  columns : List BlockResultColumn
deriving DecidableEq

/-- Modelled from the spec (4.1): `br.getColumnByName` returns the first
column with the given name, or a synthesized const-empty column when the
name is absent (encoded value is the empty string; the value type is the
zero value, never inspected because `isConst` short-circuits first). -/
def getColumnByName (br : blockResult) (f : Bytes) : BlockResultColumn :=
  match br.columns.find? (fun c => c.name == f) with
  | some c => c
  | none =>
      { name := f, isConst := true, isTime := false, valueType := .unknown,
        dictValues := [], encodedValues := [[]], values := [] }

/-- Modelled from the spec (4.1): `c.getValueAtRow(br, i)` yields the decoded
textual value of row `i`; for a const column that is the single encoded
value, otherwise entry `i` of the materialized `values` array (which is also
what `c.getValues(br)[i]` yields, so both accessors share this model). -/
def getValueAtRowB (c : BlockResultColumn) (i : Nat) : Bytes :=
  if c.isConst then c.encodedValues.getD 0 [] else c.values.getD i []

/-- Insert an optional key into the seen-key set: the
`if _, ok := m[string(keyBuf)]; !ok` pattern, with `none` for a row that is
skipped. -/
def insOpt (s : Finset Bytes) : Option Bytes → Finset Bytes
  | some k => insert k s
  | none => s

/-- The `uniq(...)` stats function of stats_uniq.go. -/
structure statsUniq where
  fields : List Bytes
  containsStar : Bool
deriving DecidableEq

/-- Row tuple of decoded values across all block columns (the `*` path). -/
def getValuesRow (br : blockResult) (i : Nat) : List Bytes :=
  br.columns.map (fun c => getValueAtRowB c i)

/-- The `seenKey` run-collapse test of the `*` path (stats_uniq.go lines
53-59): true iff every column repeats the previous row's value (vacuously
true on a block with no columns, and never true at row 0 otherwise). -/
def starSeen (br : blockResult) (i : Nat) : Bool :=
  br.columns.all (fun c =>
    decide (i ≠ 0) && (getValueAtRowB c (i - 1) == getValueAtRowB c i))

/-- Key built by the `*` path from one row tuple (stats_uniq.go lines 66-80):
`marshalBytes(name) ++ marshalBytes(value)` per column, skipped entirely
(`none`) when every column value is empty. -/
def starKeyOfTuple (names : List Bytes) (vs : List Bytes) : Option Bytes :=
  if vs.all (· == []) then none
  else some (((names.zip vs).map
    (fun p => marshalBytes p.1 ++ marshalBytes p.2)).flatten)

/-- The `seenKey` run-collapse test of the multi-field path (stats_uniq.go
lines 187-193), over the pre-fetched field columns. -/
def multiSeen (cols : List BlockResultColumn) (i : Nat) : Bool :=
  cols.all (fun c =>
    decide (i ≠ 0) && (getValueAtRowB c (i - 1) == getValueAtRowB c i))

/-- Key built by the multi-field path from one row tuple (stats_uniq.go lines
198-210): `marshalBytes(value)` per field, `none` when all values are empty. -/
def multiKeyOfTuple (vs : List Bytes) : Option Bytes :=
  if vs.all (· == []) then none else some (encodeTuple vs)

/-- `statsUniqProcessor.updateStatsForAllRows` (stats_uniq.go lines 43-218).
The state is the seen-key set `m`; the returned state-size delta and the
per-call scratch `keyBuf` (reset before every use) are not modelled. -/
def updateAllUniqB (su : statsUniq) (br : blockResult) (m : Finset Bytes) :
    Finset Bytes :=
  if su.containsStar then
    (List.range br.timestamps.length).foldl
      (fun s i =>
        if starSeen br i then s
        else insOpt s (starKeyOfTuple (br.columns.map (·.name)) (getValuesRow br i))) m
  else if su.fields.length == 1 then
    let c := getColumnByName br (su.fields.headD [])
    if c.isTime then
      (List.range br.timestamps.length).foldl
        (fun s i =>
          if decide (i ≠ 0) && (br.timestamps.getD (i - 1) 0 == br.timestamps.getD i 0)
          then s
          else insOpt s (some (uniqTimeKey (br.timestamps.getD i 0)))) m
    else if c.isConst then
      let v := c.encodedValues.getD 0 []
      if v == [] then m else insOpt m (some (uniqTypedKey .string v))
    else if c.valueType == ValueType.dict then
      (List.range c.dictValues.length).foldl
        (fun s i =>
          if c.dictValues.getD i [] == [] then s
          else insOpt s (some (uniqTypedKey .dict [i]))) m
    else
      (List.range c.encodedValues.length).foldl
        (fun s i =>
          if (c.valueType == ValueType.string) && (c.encodedValues.getD i [] == []) then s
          else if decide (i ≠ 0) &&
              (c.encodedValues.getD (i - 1) [] == c.encodedValues.getD i []) then s
          else insOpt s (some (uniqTypedKey c.valueType (c.encodedValues.getD i [])))) m
  else
    let cols := su.fields.map (getColumnByName br)
    (List.range br.timestamps.length).foldl
      (fun s i =>
        if multiSeen cols i then s
        else insOpt s (multiKeyOfTuple (cols.map (fun c => getValueAtRowB c i)))) m

/-- The spec-stated reference for C6: `updateStatsForAllRows` with every
run-collapse skip removed, processing every row unconditionally (the
empty-value skips are kept: they are semantics, not collapse). -/
def updateAllUniqBFull (su : statsUniq) (br : blockResult) (m : Finset Bytes) :
    Finset Bytes :=
  if su.containsStar then
    (List.range br.timestamps.length).foldl
      (fun s i =>
        insOpt s (starKeyOfTuple (br.columns.map (·.name)) (getValuesRow br i))) m
  else if su.fields.length == 1 then
    let c := getColumnByName br (su.fields.headD [])
    if c.isTime then
      (List.range br.timestamps.length).foldl
        (fun s i => insOpt s (some (uniqTimeKey (br.timestamps.getD i 0)))) m
    else if c.isConst then
      let v := c.encodedValues.getD 0 []
      if v == [] then m else insOpt m (some (uniqTypedKey .string v))
    else if c.valueType == ValueType.dict then
      (List.range c.dictValues.length).foldl
        (fun s i =>
          if c.dictValues.getD i [] == [] then s
          else insOpt s (some (uniqTypedKey .dict [i]))) m
    else
      (List.range c.encodedValues.length).foldl
        (fun s i =>
          if (c.valueType == ValueType.string) && (c.encodedValues.getD i [] == []) then s
          else insOpt s (some (uniqTypedKey c.valueType (c.encodedValues.getD i [])))) m
  else
    let cols := su.fields.map (getColumnByName br)
    (List.range br.timestamps.length).foldl
      (fun s i =>
        insOpt s (multiKeyOfTuple (cols.map (fun c => getValueAtRowB c i)))) m

/-- `statsUniqProcessor.mergeState` (stats_uniq.go lines 345-353): insert
every key of the source set that is missing from the destination set. -/
def mergeUniqB (dst src : Finset Bytes) : Finset Bytes :=
  dst ∪ src

/-- `statsUniqProcessor.finalizeStats` (stats_uniq.go lines 355-358). -/
def finalizeUniqB (m : Finset Bytes) : Bytes :=
  decimalBytes m.card

/-- The `count(...)` stats function of stats_count.go. -/
structure statsCount where
  fields : List Bytes
  containsStar : Bool
deriving DecidableEq

/-- The multi-field bitmap loop of `statsCountProcessor.updateStatsForAllRows`
(stats_count.go lines 91-125). `alive` is the set of still-set bits (rows
whose fields so far were all empty); `Sum.inl k` models an early
`scp.rowsCount += N; return` with `k = N`; `none` models the
`logger.Panicf` on an unknown value type. -/
def countFold (br : blockResult) (alive : Finset Nat) :
    List Bytes → Option (Sum Nat (Finset Nat))
  | [] => some (Sum.inr alive)
  | f :: rest =>
    let c := getColumnByName br f
    let N := br.timestamps.length
    if c.isConst then
      if c.encodedValues.getD 0 [] ≠ [] then some (Sum.inl N)
      else countFold br alive rest
    else if c.isTime then some (Sum.inl N)
    else
      match c.valueType with
      | .string =>
          countFold br (alive.filter (fun i => c.encodedValues.getD i [] = [])) rest
      | .dict =>
          if ¬ c.dictValues.contains [] then some (Sum.inl N)
          else
            countFold br
              (alive.filter (fun i =>
                c.dictValues.getD ((c.encodedValues.getD i []).headD 0) [] = [])) rest
      | .unknown => none
      | _ => some (Sum.inl N)

/-- `statsCountProcessor.updateStatsForAllRows` (stats_count.go lines
37-133). `n` is the current `rowsCount`; `none` models the `logger.Panicf`
branches on an unknown value type. -/
def updateAllCountB (sc : statsCount) (br : blockResult) (n : Nat) : Option Nat :=
  let N := br.timestamps.length
  if sc.containsStar then some (n + N)
  else if sc.fields.length == 1 then
    let c := getColumnByName br (sc.fields.headD [])
    if c.isConst then
      some (if c.encodedValues.getD 0 [] ≠ [] then n + N else n)
    else if c.isTime then some (n + N)
    else
      match c.valueType with
      | .string => some (n + (c.encodedValues.filter (· ≠ [])).length)
      | .dict =>
          match c.dictValues.indexOf? [] with
          | none => some (n + N)
          | some z =>
              some (n + (c.encodedValues.filter (fun v => v.headD 0 ≠ z)).length)
      | .unknown => none
      | _ => some (n + N)
  else
    match countFold br (Finset.range N) sc.fields with
    | none => none
    | some (Sum.inl k) => some (n + k)
    | some (Sum.inr alive) => some (n + (N - alive.card))

/-- `statsCountProcessor.updateStatsForRow` (stats_count.go lines 135-185). -/
def updateRowCountB (sc : statsCount) (br : blockResult) (rowIdx : Nat) (n : Nat) :
    Option Nat :=
  if sc.containsStar then some (n + 1)
  else if sc.fields.length == 1 then
    let c := getColumnByName br (sc.fields.headD [])
    if c.isConst then
      some (if c.encodedValues.getD 0 [] ≠ [] then n + 1 else n)
    else if c.isTime then some (n + 1)
    else
      match c.valueType with
      | .string => some (if c.encodedValues.getD rowIdx [] ≠ [] then n + 1 else n)
      | .dict =>
          some (if c.dictValues.getD ((c.encodedValues.getD rowIdx []).headD 0) [] ≠ []
                then n + 1 else n)
      | .unknown => none
      | _ => some (n + 1)
  else
    some (if sc.fields.any
        (fun f => getValueAtRowB (getColumnByName br f) rowIdx != []) then n + 1 else n)

/-- `statsCountProcessor.mergeState` (stats_count.go lines 187-190). -/
def mergeCountB (dst src : Nat) : Nat :=
  dst + src

/-- `statsCountProcessor.finalizeStats` (stats_count.go lines 192-194). -/
def finalizeCountB (n : Nat) : Bytes :=
  decimalBytes n

/-- Every real column of the block carries one of the documented value
types (the spec's contract in 6 and 7: an unknown `valueType` is an
INVARIANT breach). -/
def WellTypedB (br : blockResult) : Prop :=
  ∀ c ∈ br.columns, c.valueType ≠ ValueType.unknown

instance (br : blockResult) : Decidable (WellTypedB br) := by
  unfold WellTypedB
  infer_instance

/-- Sequential processing of a list of blocks through
`statsUniqProcessor.updateStatsForAllRows` on one processor. -/
def runUniqB (su : statsUniq) (bs : List blockResult) (m : Finset Bytes) :
    Finset Bytes :=
  bs.foldl (fun s b => updateAllUniqB su b s) m

/-- Sequential processing of a list of blocks through
`statsCountProcessor.updateStatsForAllRows` on one processor; a panic in any
block aborts the run. -/
def runCountB (sc : statsCount) : List blockResult → Nat → Option Nat
  | [], n => some n
  | b :: t, n =>
    match updateAllCountB sc b n with
    | none => none
    | some n2 => runCountB sc t n2

/-- The row count one block contributes to a fresh count processor. -/
def countDeltaB (sc : statsCount) (b : blockResult) : Nat :=
  (updateAllCountB sc b 0).getD 0

/-- The key set produced by the dict fast path: one key per non-empty
dictionary entry (the entire dictionary, stats_uniq.go lines 131-148). -/
def dictKeySetB (c : BlockResultColumn) : Finset Bytes :=
  ((List.range c.dictValues.length).filterMap
    (fun i => if c.dictValues.getD i [] == [] then none
              else some (uniqTypedKey .dict [i]))).toFinset

/-- The key set the per-row dict path would produce: one key per row whose
dict entry is non-empty (stats_uniq.go lines 285-301). -/
def perRowDictKeySetB (c : BlockResultColumn) : Finset Bytes :=
  ((List.range c.encodedValues.length).filterMap
    (fun r =>
      if c.dictValues.getD ((c.encodedValues.getD r []).headD 0) [] == [] then none
      else some (uniqTypedKey .dict [(c.encodedValues.getD r []).headD 0]))).toFinset

/-- Every dictionary entry is referenced by at least one row of the block
(the claim's side condition for C8). -/
def allEntriesReferenced (c : BlockResultColumn) : Prop :=
  ∀ i < c.dictValues.length,
    ∃ r < c.encodedValues.length, (c.encodedValues.getD r []).headD 0 = i

instance (c : BlockResultColumn) : Decidable (allEntriesReferenced c) := by
  unfold allEntriesReferenced
  infer_instance

/-- Every NON-EMPTY dictionary entry is referenced by at least one row of
the block (the corrected side condition for C8). -/
def nonEmptyEntriesReferenced (c : BlockResultColumn) : Prop :=
  ∀ i < c.dictValues.length, c.dictValues.getD i [] ≠ [] →
    ∃ r < c.encodedValues.length, (c.encodedValues.getD r []).headD 0 = i

instance (c : BlockResultColumn) : Decidable (nonEmptyEntriesReferenced c) := by
  unfold nonEmptyEntriesReferenced
  infer_instance

/-- Projection of one row of a `blockResult` onto a list of field names:
the decoded textual values, empty for a missing column. -/
def projRowB (fields : List Bytes) (br : blockResult) (i : Nat) : List Bytes :=
  fields.map (fun f => getValueAtRowB (getColumnByName br f) i)

/-- The set of distinct row projections across blocks, excluding rows whose
projection is empty in every field (the spec's P2 reference quantity). -/
def projSetB (fields : List Bytes) (blocks : List blockResult) :
    Finset (List Bytes) :=
  (blocks.map (fun br =>
    (List.range br.timestamps.length).filterMap
      (fun i => if (projRowB fields br i).all (· == []) then none
                else some (projRowB fields br i)))).flatten.toFinset

/-- A column at the public pipe boundary (pipes.go `BlockColumn`). -/
structure BlockColumn where
  name : Bytes
  values : List Bytes
deriving DecidableEq, Inhabited

/-- A block at the public pipe boundary: `writeBlock(workerID, timestamps,
columns)` data, bundled. -/
structure BlockA where
  timestamps : List Int
  columns : List BlockColumn
deriving DecidableEq

/-- `getBlockColumnIndex` (defined with the block-rows helpers outside src,
used throughout pipes.go): index of the first column with the given name;
the Go `-1` sentinel is modelled as `none`. -/
def getBlockColumnIndex (cols : List BlockColumn) (f : Bytes) : Option Nat :=
  cols.findIdx? (fun c => c.name == f)

/-- The field name `*` (Go `"*"`, one asterisk byte). -/
def starName : Bytes :=
  [42]

/-- The per-row value of field `f`: empty for a missing column, otherwise
`columns[idx].Values[i]` (pipes.go lines 317-322 and analogues). -/
def colValueA (cols : List BlockColumn) (f : Bytes) (i : Nat) : Bytes :=
  match getBlockColumnIndex cols f with
  | some idx => (cols.getD idx default).values.getD i []
  | none => []

/-- Projection of a row at the pipe boundary onto a field list. -/
def projRowA (fields : List Bytes) (cols : List BlockColumn) (i : Nat) :
    List Bytes :=
  fields.map (fun f => colValueA cols f i)

/-- The non-all-empty row projections contributed by one block. -/
def blockProjListA (fields : List Bytes) (b : BlockA) : List (List Bytes) :=
  (List.range b.timestamps.length).filterMap
    (fun i => if (projRowA fields b.columns i).all (· == []) then none
              else some (projRowA fields b.columns i))

/-- The set of distinct row projections across blocks at the pipe boundary,
excluding all-empty projections. -/
def projSetA (fields : List Bytes) (blocks : List BlockA) : Finset (List Bytes) :=
  (blocks.map (blockProjListA fields)).flatten.toFinset

/-- The key under which `statsFuncUniqProcessor` stores a projection: the
raw value for a single field, the marshalled tuple otherwise. -/
def encodeKeyA (fields : List Bytes) (vs : List Bytes) : Bytes :=
  if fields.length == 1 then vs.headD [] else encodeTuple vs

/-- Columns of a well-formed boundary block carry one value per row. -/
def WellFormedA (b : BlockA) : Prop :=
  ∀ c ∈ b.columns, c.values.length = b.timestamps.length

instance (b : BlockA) : Decidable (WellFormedA b) := by
  unfold WellFormedA
  infer_instance

/-- The `count(...)` stats function of pipes.go (`statsFuncCount`). -/
structure statsFuncCount where
  fields : List Bytes
  resultName : Bytes
deriving DecidableEq

/-- `statsFuncCountProcessor.updateStatsForAllRows` (pipes.go lines 519-546):
star or empty field list counts all rows; otherwise the filter bitmap keeps
the rows where every present named field is empty and the complement is
added. -/
def sfcUpdateAllRows (sfc : statsFuncCount) (ts : List Int)
    (cols : List BlockColumn) (n : Nat) : Nat :=
  if sfc.fields.isEmpty || sfc.fields.contains starName then n + ts.length
  else
    let alive := sfc.fields.foldl
      (fun (bm : Finset Nat) f =>
        match getBlockColumnIndex cols f with
        | some idx => bm.filter (fun i => (cols.getD idx default).values.getD i [] = [])
        | none => bm)
      (Finset.range ts.length)
    n + (ts.length - alive.card)

/-- `statsFuncCountProcessor.updateStatsForRow` (pipes.go lines 548-563). -/
def sfcUpdateRow (sfc : statsFuncCount) (cols : List BlockColumn)
    (rowIdx : Nat) (n : Nat) : Nat :=
  if sfc.fields.isEmpty || sfc.fields.contains starName then n + 1
  else if sfc.fields.any (fun f =>
      match getBlockColumnIndex cols f with
      | some idx => !((cols.getD idx default).values.getD rowIdx [] == [])
      | none => false) then n + 1
  else n

/-- The `uniq(...)` stats function of pipes.go (`statsFuncUniq`). -/
structure statsFuncUniq where
  fields : List Bytes
  resultName : Bytes
deriving DecidableEq

/-- The mutable state of a `statsFuncUniqProcessor`: the seen-key set `m`
and the persistent scratch buffer `keyBuf` (pipes.go lines 596-603). -/
structure SfuState where
  m : Finset Bytes
  keyBuf : Bytes
deriving DecidableEq

/-- `statsFuncUniqProcessor.updateStatsForAllRows` (pipes.go lines 605-655).
The single-field fast path inserts the raw non-empty values; the multi-field
path resets `keyBuf` at each row, marshals the row projection and inserts it
unless all values are empty (so `keyBuf` ends as the last row's key). -/
def sfuUpdateAllRows (sfu : statsFuncUniq) (ts : List Int)
    (cols : List BlockColumn) (st : SfuState) : SfuState :=
  if sfu.fields.length == 1 then
    match getBlockColumnIndex cols (sfu.fields.headD []) with
    | some idx =>
        { st with m := ((cols.getD idx default).values.foldl
            (fun s v => if v == [] then s else insert v s) st.m) }
    | none => st
  else
    (List.range ts.length).foldl
      (fun s i =>
        let vs := projRowA sfu.fields cols i
        { m := if vs.all (· == []) then s.m else insert (encodeTuple vs) s.m,
          keyBuf := encodeTuple vs }) st

/-- `statsFuncUniqProcessor.updateStatsForRow` (pipes.go lines 657-699).
In the multi-field path `keyBuf := sfup.keyBuf` is NOT reset to length zero,
so the marshalled row values are appended to the buffer contents left by
earlier calls, and the accumulated buffer is what gets inserted. -/
def sfuUpdateRow (sfu : statsFuncUniq) (cols : List BlockColumn)
    (rowIdx : Nat) (st : SfuState) : SfuState :=
  if sfu.fields.length == 1 then
    match getBlockColumnIndex cols (sfu.fields.headD []) with
    | some idx =>
        if (cols.getD idx default).values.getD rowIdx [] == [] then st
        else { st with m := insert ((cols.getD idx default).values.getD rowIdx []) st.m }
    | none => st
  else
    let vs := projRowA sfu.fields cols rowIdx
    let keyBuf := st.keyBuf ++ encodeTuple vs
    if vs.all (· == []) then { st with keyBuf := keyBuf }
    else { m := insert keyBuf st.m, keyBuf := keyBuf }

/-- `statsFuncUniqProcessor.mergeState` (pipes.go lines 701-707): every key
of the source set is inserted into the destination set. -/
def sfuMergeState (dst src : SfuState) : SfuState :=
  { dst with m := dst.m ∪ src.m }

/-- The stats function variants a `statsPipe` can carry (pipes.go). -/
inductive StatsFn where
  | count (sfc : statsFuncCount)
  | uniq (sfu : statsFuncUniq)
deriving DecidableEq

/-- The per-group processor state for one stats function. -/
inductive StatsFnState where
  | count (n : Nat)
  | uniq (st : SfuState)
deriving DecidableEq

/-- `newStatsFuncProcessor`: a zero counter or an empty key set with an
empty scratch buffer. -/
def newState : StatsFn → StatsFnState
  | .count _ => .count 0
  | .uniq _ => .uniq ⟨∅, []⟩

/-- Dispatch `updateStatsForAllRows` on the function variant. A group's
state vector is built in the order of `funcs`, so the variant always
matches; a mismatch leaves the state unchanged (unreachable). -/
def stateUpdateAll (fn : StatsFn) (ts : List Int) (cols : List BlockColumn) :
    StatsFnState → StatsFnState
  | .count n =>
    match fn with
    | .count sfc => .count (sfcUpdateAllRows sfc ts cols n)
    | .uniq _ => .count n
  | .uniq st =>
    match fn with
    | .uniq sfu => .uniq (sfuUpdateAllRows sfu ts cols st)
    | .count _ => .uniq st

/-- Dispatch `updateStatsForRow` on the function variant. -/
def stateUpdateRow (fn : StatsFn) (cols : List BlockColumn) (rowIdx : Nat) :
    StatsFnState → StatsFnState
  | .count n =>
    match fn with
    | .count sfc => .count (sfcUpdateRow sfc cols rowIdx n)
    | .uniq _ => .count n
  | .uniq st =>
    match fn with
    | .uniq sfu => .uniq (sfuUpdateRow sfu cols rowIdx st)
    | .count _ => .uniq st

/-- `mergeState` on matching variants: counters add (pipes.go lines
565-568), key sets union (pipes.go lines 701-707); a mismatch keeps the
destination (unreachable). -/
def stateMerge : StatsFnState → StatsFnState → StatsFnState
  | .count n, .count n2 => .count (n + n2)
  | .uniq st, .uniq st2 => .uniq (sfuMergeState st st2)
  | s, _ => s

/-- `finalizeStats`: the declared result name and the decimal rendering of
the counter or of the key-set cardinality (pipes.go lines 570-573 and
709-713). -/
def stateFinalize (fn : StatsFn) (s : StatsFnState) : Bytes × Bytes :=
  match fn, s with
  | .count sfc, .count n => (sfc.resultName, decimalBytes n)
  | .uniq sfu, .uniq st => (sfu.resultName, decimalBytes st.m.card)
  | .count sfc, _ => (sfc.resultName, [])
  | .uniq sfu, _ => (sfu.resultName, [])

/-- One group: a `statsFuncProcessor` state per configured function, in
`funcs` order. -/
abbrev GroupA := List StatsFnState

/-- A shard's `map[string]*statsPipeGroup`, modelled as an association list
in insertion order (the Go map iteration order is unspecified). -/
abbrev MapA := List (Bytes × GroupA)

/-- The fresh group built by `getStatsPipeGroup` on a missing key. -/
def newGroup (funcs : List StatsFn) : GroupA :=
  funcs.map newState

/-- `getStatsPipeGroup` followed by a group mutation: update the existing
group in place, or insert `upd fresh` under the key. -/
def mapUpd (m : MapA) (k : Bytes) (fresh : GroupA) (upd : GroupA → GroupA) :
    MapA :=
  match m.find? (fun p => p.1 == k) with
  | some _ => m.map (fun p => if p.1 == k then (p.1, upd p.2) else p)
  | none => m ++ [(k, upd fresh)]

/-- `statsPipeProcessor.writeBlock` on one shard (pipes.go lines 295-331):
with no by-fields all rows go to the nil-key group via
`updateStatsForAllRows`; otherwise each row is routed by its marshalled
by-field tuple and folded via `updateStatsForRow`. -/
def writeBlockA (byFields : List Bytes) (funcs : List StatsFn) (shard : MapA)
    (ts : List Int) (cols : List BlockColumn) : MapA :=
  if byFields.isEmpty then
    mapUpd shard [] (newGroup funcs)
      (fun g => List.zipWith (fun fn s => stateUpdateAll fn ts cols s) funcs g)
  else
    (List.range ts.length).foldl
      (fun sh i =>
        mapUpd sh (encodeTuple (projRowA byFields cols i)) (newGroup funcs)
          (fun g => List.zipWith (fun fn s => stateUpdateRow fn cols i s) funcs g))
      shard

/-- The per-worker shard array, freshly created by `newPipeProcessor`. -/
def initShardsA (w : Nat) : List MapA :=
  List.replicate w []

/-- A `writeBlock(workerID, ...)` call: the worker's shard is updated. -/
def writeBlockTop (byFields : List Bytes) (funcs : List StatsFn)
    (shards : List MapA) (w : Nat) (b : BlockA) : List MapA :=
  shards.set w (writeBlockA byFields funcs (shards.getD w []) b.timestamps b.columns)

/-- Run a whole input: each `(workerID, block)` event in order. -/
def runPipelineA (w : Nat) (byFields : List Bytes) (funcs : List StatsFn)
    (input : List (Nat × BlockA)) : List MapA :=
  input.foldl (fun sh e => writeBlockTop byFields funcs sh e.1 e.2) (initShardsA w)

/-- `mergeState` over one group, destination-major (pipes.go lines 358-360). -/
def mergeGroupA (dst src : GroupA) : GroupA :=
  List.zipWith stateMerge dst src

/-- The flush merge loop body: fold the source shard's groups into the
target map (pipes.go lines 343-363). -/
def mergeMapA (dst src : MapA) : MapA :=
  src.foldl
    (fun m p =>
      match m.find? (fun q => q.1 == p.1) with
      | some _ => m.map (fun q => if q.1 == p.1 then (q.1, mergeGroupA q.2 p.2) else q)
      | none => m ++ [p])
    dst

/-- The merge-and-synthesize phase of `statsPipeProcessor.flush` (pipes.go
lines 339-371). The code reslices `shards = shards[1:]` before the
zero-matching-rows branch indexes `shards[0]` again, so the synthesized
nil-key group is created in the ORIGINAL SECOND shard, and with a single
worker that index is out of range: `none` models the slice-bounds panic
(and the empty shard array, unreachable for `W ≥ 1`). Cancellation is not
modelled: this is the run in which `stopCh` never fires. -/
def mergedAndSynth (byFields : List Bytes) (funcs : List StatsFn)
    (shards : List MapA) : Option MapA :=
  match shards with
  | [] => none
  | m0 :: rest =>
    let merged := rest.foldl mergeMapA m0
    if byFields.isEmpty && merged.isEmpty then
      match rest with
      | [] => none
      | m1 :: _ => some (mapUpd m1 [] (newGroup funcs) id)
    else some merged

/-- One output row: `(name, value)` columns in order. -/
abbrev RowA := List (Bytes × Bytes)

/-- Build one output row from a group (pipes.go lines 384-416): decode the
key into by-field values (`none` models the two `logger.Panicf` calls on a
decode failure or a length mismatch), then the by-columns followed by each
function's finalized `(resultName, value)`. -/
def emitRow (byFields : List Bytes) (funcs : List StatsFn) (k : Bytes)
    (g : GroupA) : Option RowA :=
  match unmarshalAll k with
  | none => none
  | some vs =>
      if vs.length == byFields.length then
        some (byFields.zip vs ++ List.zipWith (fun fn s => stateFinalize fn s) funcs g)
      else none

/-- Emit every group of the merged map, in map order. -/
def emitRows (byFields : List Bytes) (funcs : List StatsFn) :
    MapA → Option (List RowA)
  | [] => some []
  | p :: t =>
    match emitRow byFields funcs p.1 p.2 with
    | none => none
    | some r => (emitRows byFields funcs t).map (r :: ·)

/-- `statsPipeProcessor.flush` without cancellation: merge the shards,
synthesize the zero-row group if needed, and emit one row per group. -/
def flushA (byFields : List Bytes) (funcs : List StatsFn)
    (shards : List MapA) : Option (List RowA) :=
  (mergedAndSynth byFields funcs shards).bind (emitRows byFields funcs)

/-- Every key of the map is the marshalled tuple of exactly
`byFields.length` values (the invariant behind the flush decode panics). -/
def KeysOKA (byFields : List Bytes) (m : MapA) : Prop :=
  ∀ p ∈ m, ∃ vs : List Bytes, vs.length = byFields.length ∧ p.1 = encodeTuple vs

/-- Sequential processing of boundary blocks through
`statsFuncUniqProcessor.updateStatsForAllRows` on one processor. -/
def runUniqA (sfu : statsFuncUniq) (blocks : List BlockA) (st : SfuState) :
    SfuState :=
  blocks.foldl (fun s b => sfuUpdateAllRows sfu b.timestamps b.columns s) st

/-- One-row block whose dict column `a` holds value `x` at dict index 0. -/
def c1Block1 : blockResult :=
  ⟨[0], [⟨[97], false, false, .dict, [[120]], [[0]], [[120]]⟩]⟩

/-- One-row block whose dict column `a` holds value `y` at dict index 0. -/
def c1Block2 : blockResult :=
  ⟨[0], [⟨[97], false, false, .dict, [[121]], [[0]], [[121]]⟩]⟩

/-- The function `uniq(a)`. -/
def c1Uniq : statsUniq :=
  ⟨[[97]], false⟩

/-- A one-row block whose dict column `a` has a dictionary entry `x`
(referenced by the row) and an unreferenced empty entry. -/
def c8Block : blockResult :=
  ⟨[0], [⟨[97], false, false, .dict, [[120], []], [[0]], [[120]]⟩]⟩

/-- Boundary block: two identical rows with `a=1, b=x, c=y`. -/
def c3Block1 : BlockA :=
  ⟨[0, 0], [⟨[97], [[49], [49]]⟩, ⟨[98], [[120], [120]]⟩, ⟨[99], [[121], [121]]⟩]⟩

/-- Boundary block: one more identical row `a=1, b=x, c=y`. -/
def c3Block2 : BlockA :=
  ⟨[0], [⟨[97], [[49]]⟩, ⟨[98], [[120]]⟩, ⟨[99], [[121]]⟩]⟩

/-- The pipe `stats by (a) uniq(b, c) as u`. -/
def c3Funcs : List StatsFn :=
  [.uniq ⟨[[98], [99]], [117]⟩]

/-- The by-field list `(a)`. -/
def c3By : List Bytes :=
  [[97]]

/-- The pipe `stats count(*) as c`. -/
def c4Funcs : List StatsFn :=
  [.count ⟨[starName], [99]⟩]

/-- Boundary columns with two DISTINCT rows over fields `b` and `c`. -/
def c10Cols : List BlockColumn :=
  [⟨[98], [[120], [122]]⟩, ⟨[99], [[121], [119]]⟩]

/-- The function `uniq(b, c) as u`. -/
def c10Uniq : statsFuncUniq :=
  ⟨[[98], [99]], [117]⟩

theorem uvarintDec_encAux :
    ∀ (fuel n : Nat) (r : Bytes), n ≤ fuel →
      uvarintDec (uvarintEncAux fuel n ++ r) = some (n, r) := by
  intro fuel
  induction fuel with
  | zero =>
    intro n r hn
    have h0 : n = 0 := Nat.le_zero.mp hn
    subst h0
    simp [uvarintEncAux, uvarintDec]
  | succ f ih =>
    intro n r hn
    rw [uvarintEncAux]
    by_cases h : n < 128
    · rw [if_pos h]
      simp only [List.cons_append, List.nil_append, uvarintDec]
      rw [if_pos h]
      simp
    · rw [if_neg h]
      simp only [List.cons_append, uvarintDec]
      rw [if_neg (by omega)]
      have hrec : n / 128 ≤ f := by
        have : n / 128 < n := Nat.div_lt_self (by omega) (by norm_num)
        omega
      simp only [List.append_eq]
      rw [ih (n / 128) r hrec]
      have h1 : (n % 128 + 128) % 128 = n % 128 := by omega
      have h2 : n % 128 + 128 * (n / 128) = n := Nat.mod_add_div n 128
      simp [h1, h2]

theorem uvarintDec_enc (n : Nat) (r : Bytes) :
    uvarintDec (uvarintEnc n ++ r) = some (n, r) :=
  uvarintDec_encAux n n r (Nat.le_refl n)

theorem uvarintEncAux_ne_nil (fuel n : Nat) : uvarintEncAux fuel n ≠ [] := by
  cases fuel with
  | zero => simp [uvarintEncAux]
  | succ f =>
    rw [uvarintEncAux]
    split <;> simp

theorem uvarintEnc_ne_nil (n : Nat) : uvarintEnc n ≠ [] :=
  uvarintEncAux_ne_nil n n

theorem unmarshalBytes_marshal (v r : Bytes) :
    unmarshalBytes (marshalBytes v ++ r) = some (v, r) := by
  rw [marshalBytes, List.append_assoc, unmarshalBytes, uvarintDec_enc]
  show (if v.length ≤ (v ++ r).length then
      some ((v ++ r).take v.length, (v ++ r).drop v.length) else none) = some (v, r)
  rw [if_pos (by simp)]
  simp

theorem marshalBytes_ne_nil (v : Bytes) : marshalBytes v ≠ [] := by
  rw [marshalBytes]
  cases h : uvarintEnc v.length with
  | nil => exact absurd h (uvarintEnc_ne_nil _)
  | cons a t => simp

theorem unmarshalAllFuel_encodeTuple (vs : List Bytes) :
    ∀ fuel, (encodeTuple vs).length ≤ fuel →
      unmarshalAllFuel fuel (encodeTuple vs) = some vs := by
  induction vs with
  | nil => intro fuel _; cases fuel <;> rfl
  | cons v t ih =>
    intro fuel hf
    have henc : encodeTuple (v :: t) = marshalBytes v ++ encodeTuple t := by
      simp [encodeTuple]
    have hne : encodeTuple (v :: t) ≠ [] := by
      rw [henc]
      cases h : marshalBytes v with
      | nil => exact absurd h (marshalBytes_ne_nil _)
      | cons a b => simp
    have hlen : 1 ≤ (marshalBytes v).length := by
      cases h : marshalBytes v with
      | nil => exact absurd h (marshalBytes_ne_nil _)
      | cons a b => simp
    cases fuel with
    | zero =>
      exfalso
      have : (encodeTuple (v :: t)).length = 0 := Nat.le_zero.mp hf
      exact hne (List.length_eq_zero.mp this)
    | succ f =>
      rw [henc] at hf ⊢
      cases hcons : marshalBytes v ++ encodeTuple t with
      | nil =>
        exfalso
        rcases List.append_eq_nil.mp hcons with ⟨h1, _⟩
        exact marshalBytes_ne_nil v h1
      | cons a b =>
        rw [← hcons]
        show unmarshalAllFuel (f + 1) (marshalBytes v ++ encodeTuple t) = _
        have : unmarshalAllFuel (f + 1) (marshalBytes v ++ encodeTuple t) =
            match unmarshalBytes (marshalBytes v ++ encodeTuple t) with
            | none => none
            | some (w, u) => (unmarshalAllFuel f u).map (w :: ·) := by
          rw [hcons]; rfl
        rw [this, unmarshalBytes_marshal]
        have hrec : (encodeTuple t).length ≤ f := by
          rw [List.length_append] at hf
          omega
        show (unmarshalAllFuel f (encodeTuple t)).map (v :: ·) = some (v :: t)
        rw [ih f hrec]
        rfl

theorem unmarshalAll_encodeTuple (vs : List Bytes) :
    unmarshalAll (encodeTuple vs) = some vs :=
  unmarshalAllFuel_encodeTuple vs _ (Nat.le_refl _)

theorem encodeTuple_injective : Function.Injective encodeTuple := by
  intro a b h
  have ha := unmarshalAll_encodeTuple a
  have hb := unmarshalAll_encodeTuple b
  rw [h, hb] at ha
  exact (Option.some_inj.mp ha).symm

theorem foldl_skip_insOpt (g : Nat → Bool) (k : Nat → Option Bytes) :
    ∀ (l : List Nat) (m : Finset Bytes),
      l.foldl (fun s i => if g i then s else insOpt s (k i)) m
        = m ∪ ((l.filter (fun i => !g i)).filterMap k).toFinset := by
  intro l
  induction l with
  | nil => intro m; simp
  | cons i t ih =>
    intro m
    rw [List.foldl_cons]
    by_cases hg : g i = true
    · rw [if_pos hg, ih]
      simp [List.filter_cons, hg]
    · have hg' : g i = false := by revert hg; cases g i <;> simp
      rw [if_neg hg, ih]
      have hfil : (i :: t).filter (fun j => !g j) = i :: t.filter (fun j => !g j) := by
        simp [List.filter_cons, hg']
      rw [hfil]
      cases hk : k i with
      | none => simp [insOpt, List.filterMap_cons, hk]
      | some a =>
        simp only [insOpt, List.filterMap_cons, hk, List.toFinset_cons]
        rw [Finset.insert_union, Finset.union_insert]

theorem foldl_insOpt (k : Nat → Option Bytes) (l : List Nat) (m : Finset Bytes) :
    l.foldl (fun s i => insOpt s (k i)) m = m ∪ (l.filterMap k).toFinset := by
  have h := foldl_skip_insOpt (fun _ => false) k l m
  simpa using h

theorem collapse_filter_keys {α : Type} [BEq α] [LawfulBEq α] (d : Nat → α)
    (F : α → Option Bytes) :
    ∀ n : Nat,
      (((List.range n).filter
          (fun i => !(decide (i ≠ 0) && (d (i - 1) == d i)))).filterMap
            (fun i => F (d i))).toFinset
        = ((List.range n).filterMap (fun i => F (d i))).toFinset := by
  intro n
  induction n with
  | zero => simp
  | succ n ih =>
    rw [List.range_succ, List.filter_append, List.filterMap_append,
        List.filterMap_append, List.toFinset_append, List.toFinset_append, ih]
    by_cases hc : n ≠ 0 ∧ d (n - 1) = d n
    · have hb : (!(decide (n ≠ 0) && (d (n - 1) == d n))) = false := by
        simp [hc.1, hc.2]
      have hfil :
          List.filter (fun i => !(decide (i ≠ 0) && (d (i - 1) == d i))) [n] = [] := by
        rw [List.filter_cons, hb]
        simp
      rw [hfil]
      simp only [List.filterMap_nil, List.toFinset_nil, Finset.union_empty]
      cases hF : F (d n) with
      | none => simp [List.filterMap_cons, hF]
      | some a =>
        simp only [List.filterMap_cons, hF, List.filterMap_nil, List.toFinset_cons,
          List.toFinset_nil, insert_emptyc_eq, Finset.union_empty]
        have hmem : a ∈ ((List.range n).filterMap (fun i => F (d i))).toFinset := by
          rw [List.mem_toFinset, List.mem_filterMap]
          refine ⟨n - 1, ?_, ?_⟩
          · rw [List.mem_range]; omega
          · rw [hc.2, hF]
        exact (Finset.union_eq_left.mpr (Finset.singleton_subset_iff.mpr hmem)).symm
    · have hb : (!(decide (n ≠ 0) && (d (n - 1) == d n))) = true := by
        rcases not_and_or.mp hc with h | h
        · have h0 : n = 0 := not_ne_iff.mp h
          simp [h0]
        · have hbeq : (d (n - 1) == d n) = false := beq_eq_false_iff_ne.mpr h
          simp [hbeq]
      have hfil :
          List.filter (fun i => !(decide (i ≠ 0) && (d (i - 1) == d i))) [n] = [n] := by
        rw [List.filter_cons, hb]
        simp
      rw [hfil]

theorem map_congr_iff {α β : Type} (f g : α → β) (l : List α) :
    l.map f = l.map g ↔ ∀ x ∈ l, f x = g x := by
  induction l with
  | nil => simp
  | cons x t ih => simp [ih]

theorem seen_eq_tuple (cols : List BlockResultColumn) (h : cols ≠ []) (i : Nat) :
    (cols.all (fun c =>
        decide (i ≠ 0) && (getValueAtRowB c (i - 1) == getValueAtRowB c i)))
      = (decide (i ≠ 0) &&
          ((cols.map (fun c => getValueAtRowB c (i - 1)))
            == (cols.map (fun c => getValueAtRowB c i)))) := by
  by_cases hi : i = 0
  · subst hi
    have hd : (decide ((0 : Nat) ≠ 0)) = false := by simp
    rw [hd]
    simp only [Bool.false_and, List.all_eq_false]
    cases cols with
    | nil => exact absurd rfl h
    | cons c t => simp
  · have hd : (decide (i ≠ 0)) = true := by simp [hi]
    rw [hd]
    simp only [Bool.true_and]
    rw [Bool.eq_iff_iff]
    simp [List.all_eq_true, map_congr_iff]

theorem foldl_fun_congr {α β : Type} (f g : β → α → β) (l : List α) (a : β)
    (h : ∀ b x, f b x = g b x) : l.foldl f a = l.foldl g a := by
  induction l generalizing a with
  | nil => rfl
  | cons x t ih => rw [List.foldl_cons, List.foldl_cons, h, ih]

theorem tuple_path_eq (cols : List BlockResultColumn) (K : List Bytes → Option Bytes)
    (hK : K [] = none) (n : Nat) (m : Finset Bytes) :
    (List.range n).foldl
      (fun s i =>
        if cols.all (fun c =>
            decide (i ≠ 0) && (getValueAtRowB c (i - 1) == getValueAtRowB c i))
        then s
        else insOpt s (K (cols.map (fun c => getValueAtRowB c i)))) m
    = (List.range n).foldl
        (fun s i => insOpt s (K (cols.map (fun c => getValueAtRowB c i)))) m := by
  rw [foldl_skip_insOpt
        (fun i => cols.all (fun c =>
          decide (i ≠ 0) && (getValueAtRowB c (i - 1) == getValueAtRowB c i)))
        (fun i => K (cols.map (fun c => getValueAtRowB c i))),
      foldl_insOpt]
  congr 1
  cases cols with
  | nil =>
    have hfm : List.filterMap (fun _ : Nat => K ([] : List Bytes)) (List.range n) = [] := by
      rw [List.filterMap_eq_nil_iff]
      intro a _
      exact hK
    simp [hfm]
  | cons c0 t0 =>
    have hne : (c0 :: t0) ≠ ([] : List BlockResultColumn) := by simp
    have hcongr : ∀ i ∈ List.range n,
        (!((c0 :: t0).all (fun c =>
            decide (i ≠ 0) && (getValueAtRowB c (i - 1) == getValueAtRowB c i))))
        = (!(decide (i ≠ 0) &&
            (((c0 :: t0).map (fun c => getValueAtRowB c (i - 1)))
              == ((c0 :: t0).map (fun c => getValueAtRowB c i))))) := by
      intro i _
      rw [seen_eq_tuple _ hne i]
    rw [List.filter_congr hcongr]
    exact collapse_filter_keys
      (fun i => (c0 :: t0).map (fun c => getValueAtRowB c i)) K n

theorem time_path_eq (ts : List Int) (m : Finset Bytes) :
    (List.range ts.length).foldl
      (fun s i =>
        if decide (i ≠ 0) && (ts.getD (i - 1) 0 == ts.getD i 0) then s
        else insOpt s (some (uniqTimeKey (ts.getD i 0)))) m
    = (List.range ts.length).foldl
        (fun s i => insOpt s (some (uniqTimeKey (ts.getD i 0)))) m := by
  rw [foldl_skip_insOpt
        (fun i => decide (i ≠ 0) && (ts.getD (i - 1) 0 == ts.getD i 0))
        (fun i => some (uniqTimeKey (ts.getD i 0))),
      foldl_insOpt]
  congr 1
  exact collapse_filter_keys (fun i => ts.getD i 0) (fun t => some (uniqTimeKey t)) _

theorem plain_path_eq (vt : ValueType) (enc : List Bytes) (m : Finset Bytes) :
    (List.range enc.length).foldl
      (fun s i =>
        if (vt == ValueType.string) && (enc.getD i [] == []) then s
        else if decide (i ≠ 0) && (enc.getD (i - 1) [] == enc.getD i []) then s
        else insOpt s (some (uniqTypedKey vt (enc.getD i [])))) m
    = (List.range enc.length).foldl
        (fun s i =>
          if (vt == ValueType.string) && (enc.getD i [] == []) then s
          else insOpt s (some (uniqTypedKey vt (enc.getD i [])))) m := by
  have hL : ∀ (s : Finset Bytes) (i : Nat),
      (if (vt == ValueType.string) && (enc.getD i [] == []) then s
       else if decide (i ≠ 0) && (enc.getD (i - 1) [] == enc.getD i []) then s
       else insOpt s (some (uniqTypedKey vt (enc.getD i []))))
      = (if decide (i ≠ 0) && (enc.getD (i - 1) [] == enc.getD i []) then s
         else insOpt s
           (if (vt == ValueType.string) && (enc.getD i [] == []) then none
            else some (uniqTypedKey vt (enc.getD i [])))) := by
    intro s i
    by_cases he : ((vt == ValueType.string) && (enc.getD i [] == [])) = true
    · rw [if_pos he, if_pos he]
      by_cases hg : (decide (i ≠ 0) && (enc.getD (i - 1) [] == enc.getD i [])) = true
      · rw [if_pos hg]
      · rw [if_neg hg]
        rfl
    · rw [if_neg he, if_neg he]
  have hR : ∀ (s : Finset Bytes) (i : Nat),
      (if (vt == ValueType.string) && (enc.getD i [] == []) then s
       else insOpt s (some (uniqTypedKey vt (enc.getD i []))))
      = insOpt s
          (if (vt == ValueType.string) && (enc.getD i [] == []) then none
           else some (uniqTypedKey vt (enc.getD i []))) := by
    intro s i
    by_cases he : ((vt == ValueType.string) && (enc.getD i [] == [])) = true
    · rw [if_pos he, if_pos he]
      rfl
    · rw [if_neg he, if_neg he]
  rw [foldl_fun_congr _ _ _ _ hL, foldl_fun_congr _ _ _ _ hR]
  rw [foldl_skip_insOpt
        (fun i => decide (i ≠ 0) && (enc.getD (i - 1) [] == enc.getD i []))
        (fun i =>
          if (vt == ValueType.string) && (enc.getD i [] == []) then none
          else some (uniqTypedKey vt (enc.getD i []))),
      foldl_insOpt]
  congr 1
  exact collapse_filter_keys (fun i => enc.getD i [])
    (fun v => if (vt == ValueType.string) && (v == []) then none
              else some (uniqTypedKey vt v)) enc.length

/-- C6: for every uniq state and every input block, the run-collapse
optimization in updateStatsForAllRows (skipping a row whose values equal the
previous row's, column by column, or whose encoded value equals
encodedValues at the previous index) produces exactly the same final key set
as processing every row without collapsing. -/
theorem C6_run_collapse (su : statsUniq) (br : blockResult) (m : Finset Bytes) :
    updateAllUniqB su br m = updateAllUniqBFull su br m := by
  unfold updateAllUniqB updateAllUniqBFull
  by_cases hS : su.containsStar = true
  · rw [if_pos hS, if_pos hS]
    simp only [starSeen, getValuesRow]
    exact tuple_path_eq br.columns (starKeyOfTuple (br.columns.map (·.name))) rfl _ m
  · rw [if_neg hS, if_neg hS]
    by_cases hL : (su.fields.length == 1) = true
    · rw [if_pos hL, if_pos hL]
      dsimp only
      by_cases hT : (getColumnByName br (su.fields.headD [])).isTime = true
      · rw [if_pos hT, if_pos hT]
        exact time_path_eq br.timestamps m
      · rw [if_neg hT, if_neg hT]
        by_cases hC : (getColumnByName br (su.fields.headD [])).isConst = true
        · rw [if_pos hC, if_pos hC]
        · rw [if_neg hC, if_neg hC]
          by_cases hD :
              ((getColumnByName br (su.fields.headD [])).valueType == ValueType.dict) = true
          · rw [if_pos hD, if_pos hD]
          · rw [if_neg hD, if_neg hD]
            exact plain_path_eq _ _ m
    · rw [if_neg hL, if_neg hL]
      dsimp only
      simp only [multiSeen]
      exact tuple_path_eq (su.fields.map (getColumnByName br)) multiKeyOfTuple rfl _ m

theorem toByte_injective : ∀ a b : ValueType, a.toByte = b.toByte → a = b := by
  decide

/-- C5: the single-field uniq key encodings cannot collide across physical
column types: a time key (leading byte 1, then the fixed-width timestamp) is
never byte-equal to any typed key (leading byte 0, then the value-type tag,
then the payload), and two typed keys with different value-type tags are
never byte-equal, whatever their payloads. -/
theorem C5_keys_no_collision (t : Int) (vt vt1 vt2 : ValueType) (p p1 p2 : Bytes)
    (h : vt1 ≠ vt2) :
    uniqTimeKey t ≠ uniqTypedKey vt p ∧ uniqTypedKey vt1 p1 ≠ uniqTypedKey vt2 p2 := by
  constructor
  · intro hEq
    rw [uniqTimeKey, uniqTypedKey] at hEq
    exact absurd (List.head_eq_of_cons_eq hEq) (by norm_num)
  · intro hEq
    rw [uniqTypedKey, uniqTypedKey] at hEq
    have h2 := List.head_eq_of_cons_eq (List.tail_eq_of_cons_eq hEq)
    exact h (toByte_injective _ _ h2)

/-- Witness for C5 at concrete inputs. -/
theorem C5_keys_no_collision_witness :
    uniqTimeKey 5 ≠ uniqTypedKey ValueType.string [7] ∧
      uniqTypedKey ValueType.string [7] ≠ uniqTypedKey ValueType.dict [7] :=
  C5_keys_no_collision 5 ValueType.string ValueType.string ValueType.dict
    [7] [7] [7] (by decide)

/-- C1 counterexample: `uniq(a)` over two one-row blocks whose dict columns
hold the distinct values `x` and `y`, both at dict index 0. The dict fast
path keys on the block-local dictionary index, so both rows map to the same
key and the finalized result is 1, while the set of distinct projections has
cardinality 2. -/
theorem C1_counterexample :
    finalizeUniqB (runUniqB c1Uniq [c1Block1, c1Block2] ∅)
      ≠ decimalBytes (projSetB [[97]] [c1Block1, c1Block2]).card ∧
    (runUniqB c1Uniq [c1Block1, c1Block2] ∅).card = 1 ∧
    (projSetB [[97]] [c1Block1, c1Block2]).card = 2 := by
  decide

/-- C2: the count processor of stats_count.go with an EMPTY field list (no
star) adds 0 rows on a one-row block, both row-wise and block-wise: the
containsStar fast path is not taken, and the bitmap slow path subtracts the
full bitmap again. The claim (and spec 4.4.1) says an empty field list
counts ALL rows, i.e. 1 here. -/
theorem C2_code_eval :
    updateAllCountB ⟨[], false⟩ ⟨[0], []⟩ 0 = some 0 ∧
    updateRowCountB ⟨[], false⟩ ⟨[0], []⟩ 0 0 = some 0 ∧
    (⟨[0], []⟩ : blockResult).timestamps.length = 1 := by
  decide

/-- C3: `stats by (a) uniq(b, c)` over three identical rows `a=1,b=x,c=y`
(a two-row block and a one-row block). Through one shard the result row is
`uniq=3`; distributing the same blocks over two workers yields `uniq=2`,
because `statsFuncUniqProcessor.updateStatsForRow` never resets its
persistent key buffer, so the inserted key depends on the rows previously
routed to the same shard. The claim (spec P1) requires both runs to emit the
same rows. -/
theorem C3_code_eval :
    flushA c3By c3Funcs (runPipelineA 1 c3By c3Funcs [(0, c3Block1), (0, c3Block2)])
      = some [[([97], [49]), ([117], [51])]] ∧
    flushA c3By c3Funcs (runPipelineA 2 c3By c3Funcs [(0, c3Block1), (1, c3Block2)])
      = some [[([97], [49]), ([117], [50])]] := by
  decide

/-- C4: `stats count(*) as c` over EMPTY input. With two workers flush
synthesizes the nil-key group and emits one `c=0` row, but with a single
worker the synthesize branch indexes `shards[0]` AFTER `shards = shards[1:]`
emptied the slice, which panics (modelled as `none`). The claim requires one
zero row for every worker count `W ≥ 1`. -/
theorem C4_code_eval :
    flushA [] c4Funcs (runPipelineA 1 [] c4Funcs []) = none ∧
    flushA [] c4Funcs (runPipelineA 2 [] c4Funcs []) = some [[([99], [48])]] := by
  decide

/-- C8 counterexample: a dict column with dictionary `[x, ""]` whose single
row references index 0. The state equals the per-row key set, yet the empty
dictionary entry at index 1 is referenced by no row, so "equals the per-row
set precisely when EVERY dictionary entry is referenced" fails right to
left. -/
theorem C8_counterexample :
    ¬ ((updateAllUniqB c1Uniq c8Block ∅
          = perRowDictKeySetB (getColumnByName c8Block [97]))
        ↔ allEntriesReferenced (getColumnByName c8Block [97])) := by
  decide

/-- C10: `statsFuncUniqProcessor.updateStatsForRow` with fields `(b, c)`
does NOT start from an empty scratch buffer: after one call the buffer is
non-empty, and feeding the same two distinct rows in the two possible orders
yields different key sets. The claim requires the buffer to be empty at the
start of each call and the key set to be order-independent. -/
theorem C10_code_eval :
    (sfuUpdateRow c10Uniq c10Cols 0 ⟨∅, []⟩).keyBuf ≠ [] ∧
    (sfuUpdateRow c10Uniq c10Cols 1 (sfuUpdateRow c10Uniq c10Cols 0 ⟨∅, []⟩)).m
      ≠ (sfuUpdateRow c10Uniq c10Cols 0 (sfuUpdateRow c10Uniq c10Cols 1 ⟨∅, []⟩)).m := by
  decide

theorem filter_map_filterMap {α β : Type} (p : α → Bool) (f : α → β) (l : List α) :
    (l.filter (fun a => !(p a))).map f
      = l.filterMap (fun a => if p a then none else some (f a)) := by
  induction l with
  | nil => rfl
  | cons x t ih =>
    by_cases h : p x = true
    · simp [List.filter_cons, List.filterMap_cons, h, ih]
    · have h' : p x = false := by revert h; cases p x <;> simp
      simp [List.filter_cons, List.filterMap_cons, h', ih]

theorem filterMap_some_fn {α β : Type} (f : α → β) (l : List α) :
    l.filterMap (fun a => some (f a)) = l.map f := by
  induction l with
  | nil => rfl
  | cons x t ih => simp [List.filterMap_cons, ih]

theorem dict_key_inj {i j : Nat} (h : uniqTypedKey .dict [i] = uniqTypedKey .dict [j]) :
    i = j := by
  simpa [uniqTypedKey] using h

theorem mem_dictKeySetB (c : BlockResultColumn) (k : Bytes) :
    k ∈ dictKeySetB c ↔
      ∃ i, i < c.dictValues.length ∧ c.dictValues.getD i [] ≠ [] ∧
        k = uniqTypedKey .dict [i] := by
  rw [dictKeySetB, List.mem_toFinset, List.mem_filterMap]
  constructor
  · rintro ⟨i, hi, hsome⟩
    rw [List.mem_range] at hi
    by_cases hp : (c.dictValues.getD i [] == []) = true
    · rw [if_pos hp] at hsome; cases hsome
    · rw [if_neg hp] at hsome
      exact ⟨i, hi, by simpa using hp, (Option.some_inj.mp hsome).symm⟩
  · rintro ⟨i, hi, hne, hk⟩
    refine ⟨i, List.mem_range.mpr hi, ?_⟩
    rw [if_neg (by simpa using hne), hk]

theorem mem_perRowDictKeySetB (c : BlockResultColumn) (k : Bytes) :
    k ∈ perRowDictKeySetB c ↔
      ∃ r, r < c.encodedValues.length ∧
        c.dictValues.getD ((c.encodedValues.getD r []).headD 0) [] ≠ [] ∧
        k = uniqTypedKey .dict [(c.encodedValues.getD r []).headD 0] := by
  rw [perRowDictKeySetB, List.mem_toFinset, List.mem_filterMap]
  constructor
  · rintro ⟨r, hr, hsome⟩
    rw [List.mem_range] at hr
    by_cases hp : (c.dictValues.getD ((c.encodedValues.getD r []).headD 0) [] == []) = true
    · rw [if_pos hp] at hsome; cases hsome
    · rw [if_neg hp] at hsome
      exact ⟨r, hr, by simpa using hp, (Option.some_inj.mp hsome).symm⟩
  · rintro ⟨r, hr, hne, hk⟩
    refine ⟨r, List.mem_range.mpr hr, ?_⟩
    rw [if_neg (by simpa using hne), hk]

/-- C8 (amended): for a single-field uniq updateStatsForAllRows on a
dict-encoded column, the state after the call (from an empty state) contains
exactly one key `[0, DICT, i]` for every non-empty dictionary entry at index
`i` — the fast path enumerates the entire dictionary, not the per-row index
array — and this equals the set of per-row keys precisely when every
NON-EMPTY dictionary entry is referenced by at least one row of the block. -/
theorem C8_amended (su : statsUniq) (br : blockResult) (f : Bytes)
    (hS : su.containsStar = false) (hf : su.fields = [f])
    (hT : (getColumnByName br f).isTime = false)
    (hC : (getColumnByName br f).isConst = false)
    (hD : (getColumnByName br f).valueType = ValueType.dict) :
    updateAllUniqB su br ∅ = dictKeySetB (getColumnByName br f) ∧
    (dictKeySetB (getColumnByName br f) = perRowDictKeySetB (getColumnByName br f)
      ↔ nonEmptyEntriesReferenced (getColumnByName br f)) := by
  constructor
  · unfold updateAllUniqB
    simp only [hf, List.headD_cons]
    rw [if_neg (by simp [hS])]
    rw [if_pos (by simp)]
    rw [if_neg (by simp [hT]), if_neg (by simp [hC]), if_pos (by simp [hD])]
    rw [foldl_skip_insOpt
          (fun i => ((getColumnByName br f).dictValues.getD i [] == []))
          (fun i => some (uniqTypedKey .dict [i]))]
    rw [Finset.empty_union, dictKeySetB]
    congr 1
    rw [filterMap_some_fn, filter_map_filterMap]
  · constructor
    · intro hEq i hi hne
      have hk : uniqTypedKey .dict [i] ∈ perRowDictKeySetB (getColumnByName br f) := by
        rw [← hEq, mem_dictKeySetB]
        exact ⟨i, hi, hne, rfl⟩
      rw [mem_perRowDictKeySetB] at hk
      obtain ⟨r, hr, _, hkey⟩ := hk
      exact ⟨r, hr, (dict_key_inj hkey).symm⟩
    · intro href
      apply Finset.ext
      intro k
      rw [mem_dictKeySetB, mem_perRowDictKeySetB]
      constructor
      · rintro ⟨i, hi, hne, hk⟩
        obtain ⟨r, hr, hidx⟩ := href i hi hne
        exact ⟨r, hr, by rw [hidx]; exact hne, by rw [hidx]; exact hk⟩
      · rintro ⟨r, hr, hne, hk⟩
        refine ⟨(((getColumnByName br f).encodedValues.getD r []).headD 0), ?_, hne, hk⟩
        by_contra hbig
        rw [Nat.not_lt] at hbig
        exact hne (List.getD_eq_default _ _ hbig)

/-- Witness for C8 at the dict column of `c1Block1` (dictionary `[x]`,
one row referencing index 0). -/
theorem C8_amended_witness :
    (updateAllUniqB c1Uniq c1Block1 ∅ = dictKeySetB (getColumnByName c1Block1 [97]) ∧
      (dictKeySetB (getColumnByName c1Block1 [97])
          = perRowDictKeySetB (getColumnByName c1Block1 [97])
        ↔ nonEmptyEntriesReferenced (getColumnByName c1Block1 [97]))) :=
  C8_amended c1Uniq c1Block1 [97] (by decide) (by decide) (by decide) (by decide)
    (by decide)

theorem foldl_skip_insOpt_union (g : Nat → Bool) (k : Nat → Option Bytes)
    (l : List Nat) (m : Finset Bytes) :
    l.foldl (fun s i => if g i then s else insOpt s (k i)) m
      = m ∪ l.foldl (fun s i => if g i then s else insOpt s (k i)) ∅ := by
  rw [foldl_skip_insOpt, foldl_skip_insOpt]
  simp

theorem updateAllUniqB_union (su : statsUniq) (br : blockResult) (m : Finset Bytes) :
    updateAllUniqB su br m = m ∪ updateAllUniqB su br ∅ := by
  unfold updateAllUniqB
  by_cases hS : su.containsStar = true
  · rw [if_pos hS, if_pos hS]
    exact foldl_skip_insOpt_union (fun i => starSeen br i)
      (fun i => starKeyOfTuple (br.columns.map (·.name)) (getValuesRow br i)) _ m
  · rw [if_neg hS, if_neg hS]
    by_cases hL : (su.fields.length == 1) = true
    · rw [if_pos hL, if_pos hL]
      by_cases hT : (getColumnByName br (su.fields.headD [])).isTime = true
      · rw [if_pos hT, if_pos hT]
        exact foldl_skip_insOpt_union
          (fun i => decide (i ≠ 0) &&
            (br.timestamps.getD (i - 1) 0 == br.timestamps.getD i 0))
          (fun i => some (uniqTimeKey (br.timestamps.getD i 0))) _ m
      · rw [if_neg hT, if_neg hT]
        by_cases hC : (getColumnByName br (su.fields.headD [])).isConst = true
        · rw [if_pos hC, if_pos hC]
          dsimp only
          by_cases hv :
              ((getColumnByName br (su.fields.headD [])).encodedValues.getD 0 [] == []) = true
          · rw [if_pos hv, if_pos hv]
            simp
          · rw [if_neg hv, if_neg hv]
            simp [insOpt, Finset.insert_eq, Finset.union_comm]
        · rw [if_neg hC, if_neg hC]
          by_cases hD :
              ((getColumnByName br (su.fields.headD [])).valueType == ValueType.dict) = true
          · rw [if_pos hD, if_pos hD]
            exact foldl_skip_insOpt_union
              (fun i => ((getColumnByName br (su.fields.headD [])).dictValues.getD i [] == []))
              (fun i => some (uniqTypedKey .dict [i])) _ m
          · rw [if_neg hD, if_neg hD]
            generalize getColumnByName br (su.fields.headD []) = c
            have hbody : ∀ (s : Finset Bytes) (i : Nat),
                (if (c.valueType == ValueType.string) && (c.encodedValues.getD i [] == [])
                 then s
                 else if decide (i ≠ 0) &&
                     (c.encodedValues.getD (i - 1) [] == c.encodedValues.getD i []) then s
                 else insOpt s (some (uniqTypedKey c.valueType (c.encodedValues.getD i []))))
                = (if ((c.valueType == ValueType.string) && (c.encodedValues.getD i [] == []))
                      || (decide (i ≠ 0) &&
                        (c.encodedValues.getD (i - 1) [] == c.encodedValues.getD i []))
                   then s
                   else insOpt s (some (uniqTypedKey c.valueType (c.encodedValues.getD i [])))) := by
              intro s i
              by_cases h1 :
                  ((c.valueType == ValueType.string) && (c.encodedValues.getD i [] == [])) = true
              · rw [if_pos h1, if_pos (by rw [h1, Bool.true_or])]
              · have h1' :
                    ((c.valueType == ValueType.string) && (c.encodedValues.getD i [] == [])) = false := by
                  revert h1
                  cases ((c.valueType == ValueType.string) && (c.encodedValues.getD i [] == []))
                  <;> simp
                rw [if_neg h1]
                by_cases h2 : (decide (i ≠ 0) &&
                    (c.encodedValues.getD (i - 1) [] == c.encodedValues.getD i [])) = true
                · rw [if_pos h2, if_pos (by rw [h2, Bool.or_true])]
                · have h2' : (decide (i ≠ 0) &&
                      (c.encodedValues.getD (i - 1) [] == c.encodedValues.getD i [])) = false := by
                    revert h2
                    cases (decide (i ≠ 0) &&
                      (c.encodedValues.getD (i - 1) [] == c.encodedValues.getD i []))
                    <;> simp
                  rw [if_neg h2, if_neg (by rw [h1', h2']; simp)]
            rw [foldl_fun_congr _ _ _ _ hbody, foldl_fun_congr _ _ _ _ hbody]
            exact foldl_skip_insOpt_union
              (fun i => ((c.valueType == ValueType.string) && (c.encodedValues.getD i [] == []))
                || (decide (i ≠ 0) &&
                  (c.encodedValues.getD (i - 1) [] == c.encodedValues.getD i [])))
              (fun i => some (uniqTypedKey c.valueType (c.encodedValues.getD i []))) _ m
    · rw [if_neg hL, if_neg hL]
      dsimp only
      exact foldl_skip_insOpt_union
        (fun i => multiSeen (su.fields.map (getColumnByName br)) i)
        (fun i => multiKeyOfTuple
          ((su.fields.map (getColumnByName br)).map (fun c => getValueAtRowB c i))) _ m

theorem foldl_union_acc (l : List (Finset Bytes)) :
    ∀ a : Finset Bytes, l.foldl (· ∪ ·) a = a ∪ l.foldl (· ∪ ·) ∅ := by
  induction l with
  | nil => intro a; simp
  | cons x t ih =>
    intro a
    rw [List.foldl_cons, List.foldl_cons, ih (a ∪ x), ih (∅ ∪ x)]
    simp [Finset.union_assoc]

theorem perm_foldl_union {l1 l2 : List (Finset Bytes)} (h : l1.Perm l2) :
    ∀ a : Finset Bytes, l1.foldl (· ∪ ·) a = l2.foldl (· ∪ ·) a := by
  induction h with
  | nil => intro a; rfl
  | cons x _ ih =>
    intro a
    rw [List.foldl_cons, List.foldl_cons]
    exact ih _
  | swap x y l =>
    intro a
    simp only [List.foldl_cons]
    rw [Finset.union_right_comm]
  | trans _ _ ih1 ih2 =>
    intro a
    rw [ih1, ih2]

theorem runUniqB_append (su : statsUniq) (l1 l2 : List blockResult) (m : Finset Bytes) :
    runUniqB su (l1 ++ l2) m = runUniqB su l2 (runUniqB su l1 m) := by
  unfold runUniqB
  rw [List.foldl_append]

theorem runUniqB_union (su : statsUniq) (bs : List blockResult) (m : Finset Bytes) :
    runUniqB su bs m = m ∪ runUniqB su bs ∅ := by
  induction bs generalizing m with
  | nil => simp [runUniqB]
  | cons b t ih =>
    show runUniqB su t (updateAllUniqB su b m) = m ∪ runUniqB su t (updateAllUniqB su b ∅)
    rw [ih (updateAllUniqB su b m), ih (updateAllUniqB su b ∅)]
    rw [updateAllUniqB_union su b m]
    simp [Finset.union_assoc]

theorem runUniqB_flatten (su : statsUniq) (parts : List (List blockResult)) :
    runUniqB su parts.flatten ∅
      = (parts.map (fun p => runUniqB su p ∅)).foldl (· ∪ ·) ∅ := by
  induction parts with
  | nil => rfl
  | cons p t ih =>
    rw [List.flatten_cons, runUniqB_append,
      runUniqB_union su t.flatten (runUniqB su p ∅), ih]
    rw [List.map_cons, List.foldl_cons]
    rw [foldl_union_acc _ (∅ ∪ runUniqB su p ∅)]
    simp

theorem getColumnByName_mem (br : blockResult) (f : Bytes) :
    getColumnByName br f ∈ br.columns ∨ (getColumnByName br f).isConst = true := by
  unfold getColumnByName
  cases hfind : br.columns.find? (fun c => c.name == f) with
  | some c =>
    left
    exact List.mem_of_find?_eq_some hfind
  | none =>
    right
    rfl

theorem countFold_isSome (br : blockResult) (h : WellTypedB br) :
    ∀ (fields : List Bytes) (alive : Finset Nat),
      (countFold br alive fields).isSome := by
  intro fields
  induction fields with
  | nil => intro alive; rfl
  | cons f rest ih =>
    intro alive
    unfold countFold
    dsimp only
    by_cases hC : (getColumnByName br f).isConst = true
    · rw [if_pos hC]
      by_cases he : (getColumnByName br f).encodedValues.getD 0 [] ≠ []
      · rw [if_pos he]; rfl
      · rw [if_neg he]; exact ih _
    · rw [if_neg hC]
      by_cases hT : (getColumnByName br f).isTime = true
      · rw [if_pos hT]; rfl
      · rw [if_neg hT]
        have hmem : getColumnByName br f ∈ br.columns := by
          rcases getColumnByName_mem br f with hm | hcst
          · exact hm
          · exact absurd hcst hC
        have hvt := h _ hmem
        cases hvtc : (getColumnByName br f).valueType with
        | unknown => exact absurd hvtc hvt
        | string => exact ih _
        | dict =>
          by_cases hcont : ¬ (getColumnByName br f).dictValues.contains []
          · rw [if_pos hcont]; rfl
          · rw [if_neg hcont]; exact ih _
        | uint8 => rfl
        | uint16 => rfl
        | uint32 => rfl
        | uint64 => rfl
        | float64 => rfl
        | ipv4 => rfl
        | timestampISO8601 => rfl

theorem updateAllCountB_isSome (sc : statsCount) (br : blockResult) (n : Nat)
    (h : WellTypedB br) : (updateAllCountB sc br n).isSome := by
  unfold updateAllCountB
  dsimp only
  by_cases hS : sc.containsStar = true
  · rw [if_pos hS]; rfl
  · rw [if_neg hS]
    by_cases hL : (sc.fields.length == 1) = true
    · rw [if_pos hL]
      by_cases hC : (getColumnByName br (sc.fields.headD [])).isConst = true
      · rw [if_pos hC]; rfl
      · rw [if_neg hC]
        by_cases hT : (getColumnByName br (sc.fields.headD [])).isTime = true
        · rw [if_pos hT]; rfl
        · rw [if_neg hT]
          have hmem : getColumnByName br (sc.fields.headD []) ∈ br.columns := by
            rcases getColumnByName_mem br (sc.fields.headD []) with hm | hcst
            · exact hm
            · exact absurd hcst hC
          have hvt := h _ hmem
          cases hvtc : (getColumnByName br (sc.fields.headD [])).valueType with
          | unknown => exact absurd hvtc hvt
          | string => rfl
          | dict =>
            cases (getColumnByName br (sc.fields.headD [])).dictValues.indexOf? [] <;> rfl
          | uint8 => rfl
          | uint16 => rfl
          | uint32 => rfl
          | uint64 => rfl
          | float64 => rfl
          | ipv4 => rfl
          | timestampISO8601 => rfl
    · rw [if_neg hL]
      have hcf := countFold_isSome br h sc.fields (Finset.range br.timestamps.length)
      cases hcfe : countFold br (Finset.range br.timestamps.length) sc.fields with
      | none =>
        rw [hcfe] at hcf
        simp at hcf
      | some x => cases x <;> rfl

theorem updateRowCountB_isSome (sc : statsCount) (br : blockResult) (r n : Nat)
    (h : WellTypedB br) : (updateRowCountB sc br r n).isSome := by
  unfold updateRowCountB
  by_cases hS : sc.containsStar = true
  · rw [if_pos hS]; rfl
  · rw [if_neg hS]
    by_cases hL : (sc.fields.length == 1) = true
    · rw [if_pos hL]
      dsimp only
      by_cases hC : (getColumnByName br (sc.fields.headD [])).isConst = true
      · rw [if_pos hC]; rfl
      · rw [if_neg hC]
        by_cases hT : (getColumnByName br (sc.fields.headD [])).isTime = true
        · rw [if_pos hT]; rfl
        · rw [if_neg hT]
          have hmem : getColumnByName br (sc.fields.headD []) ∈ br.columns := by
            rcases getColumnByName_mem br (sc.fields.headD []) with hm | hcst
            · exact hm
            · exact absurd hcst hC
          have hvt := h _ hmem
          cases hvtc : (getColumnByName br (sc.fields.headD [])).valueType with
          | unknown => exact absurd hvtc hvt
          | string => rfl
          | dict => rfl
          | uint8 => rfl
          | uint16 => rfl
          | uint32 => rfl
          | uint64 => rfl
          | float64 => rfl
          | ipv4 => rfl
          | timestampISO8601 => rfl
    · rw [if_neg hL]; rfl

theorem updateAllCountB_shift (sc : statsCount) (br : blockResult) (n : Nat) :
    updateAllCountB sc br n = (updateAllCountB sc br 0).map (n + ·) := by
  unfold updateAllCountB
  dsimp only
  by_cases hS : sc.containsStar = true
  · rw [if_pos hS, if_pos hS]; simp
  · rw [if_neg hS, if_neg hS]
    by_cases hL : (sc.fields.length == 1) = true
    · rw [if_pos hL, if_pos hL]
      by_cases hC : (getColumnByName br (sc.fields.headD [])).isConst = true
      · rw [if_pos hC, if_pos hC]
        split_ifs <;> simp
      · rw [if_neg hC, if_neg hC]
        by_cases hT : (getColumnByName br (sc.fields.headD [])).isTime = true
        · rw [if_pos hT, if_pos hT]; simp
        · rw [if_neg hT, if_neg hT]
          cases hvtc : (getColumnByName br (sc.fields.headD [])).valueType with
          | dict =>
            cases (getColumnByName br (sc.fields.headD [])).dictValues.indexOf? [] <;> simp
          | unknown => simp
          | string => simp
          | uint8 => simp
          | uint16 => simp
          | uint32 => simp
          | uint64 => simp
          | float64 => simp
          | ipv4 => simp
          | timestampISO8601 => simp
    · rw [if_neg hL, if_neg hL]
      cases hcfe : countFold br (Finset.range br.timestamps.length) sc.fields with
      | none => simp
      | some x => cases x <;> simp

theorem runCountB_sum (sc : statsCount) :
    ∀ (bs : List blockResult) (n : Nat), (∀ b ∈ bs, WellTypedB b) →
      runCountB sc bs n = some (n + (bs.map (countDeltaB sc)).sum) := by
  intro bs
  induction bs with
  | nil =>
    intro n _
    simp [runCountB]
  | cons b t ih =>
    intro n h
    have hS : (updateAllCountB sc b 0).isSome :=
      updateAllCountB_isSome sc b 0 (h b (by simp))
    obtain ⟨k, hk⟩ := Option.isSome_iff_exists.mp hS
    have hupd : updateAllCountB sc b n = some (n + k) := by
      rw [updateAllCountB_shift, hk]
      rfl
    have hdelta : countDeltaB sc b = k := by
      rw [countDeltaB, hk]
      rfl
    show (match updateAllCountB sc b n with
          | none => none
          | some n2 => runCountB sc t n2) = _
    rw [hupd]
    show runCountB sc t (n + k) = _
    rw [ih (n + k) (fun b2 hb => h b2 (by simp [hb]))]
    simp [hdelta, Nat.add_assoc]

theorem foldl_add_acc (l : List Nat) : ∀ a : Nat, l.foldl (· + ·) a = a + l.sum := by
  induction l with
  | nil => intro a; simp
  | cons x t ih =>
    intro a
    rw [List.foldl_cons, ih (a + x), List.sum_cons]
    omega

/-- C7: state merge is associative and commutative for both function
variants (count adds the counters, uniq takes the set union, on the
blockResult processors and on the BlockColumn uniq processor), and for any
partition of the input blocks into groups, merging the partial states of
the groups in the order of any permutation yields the same final state as
processing the whole input on one processor (for count, whenever every
block is well-typed so that no panic intervenes). -/
theorem C7_merge_assoc_comm :
    (∀ a b c : Nat, mergeCountB (mergeCountB a b) c = mergeCountB a (mergeCountB b c)) ∧
    (∀ a b : Nat, mergeCountB a b = mergeCountB b a) ∧
    (∀ a b c : Finset Bytes,
       mergeUniqB (mergeUniqB a b) c = mergeUniqB a (mergeUniqB b c)) ∧
    (∀ a b : Finset Bytes, mergeUniqB a b = mergeUniqB b a) ∧
    (∀ s1 s2 : SfuState, (sfuMergeState s1 s2).m = mergeUniqB s1.m s2.m) ∧
    (∀ (su : statsUniq) (parts parts' : List (List blockResult)),
       parts.Perm parts' →
       (parts'.map (fun p => runUniqB su p ∅)).foldl mergeUniqB ∅
         = runUniqB su parts.flatten ∅) ∧
    (∀ (sc : statsCount) (parts parts' : List (List blockResult)),
       parts.Perm parts' → (∀ b ∈ parts.flatten, WellTypedB b) →
       ∃ ns : List Nat,
         parts'.map (fun p => runCountB sc p 0) = ns.map some ∧
         runCountB sc parts.flatten 0 = some (ns.foldl mergeCountB 0)) := by
  refine ⟨?_, ?_, ?_, ?_, ?_, ?_, ?_⟩
  · intro a b c
    simp [mergeCountB, Nat.add_assoc]
  · intro a b
    simp [mergeCountB, Nat.add_comm]
  · intro a b c
    simp [mergeUniqB, Finset.union_assoc]
  · intro a b
    simp [mergeUniqB, Finset.union_comm]
  · intro s1 s2
    rfl
  · intro su parts parts' hperm
    have hm : (parts.map (fun p => runUniqB su p ∅)).Perm
        (parts'.map (fun p => runUniqB su p ∅)) := hperm.map _
    have hfold : (parts'.map (fun p => runUniqB su p ∅)).foldl (· ∪ ·) ∅
        = (parts.map (fun p => runUniqB su p ∅)).foldl (· ∪ ·) ∅ :=
      perm_foldl_union hm.symm ∅
    show (parts'.map (fun p => runUniqB su p ∅)).foldl (· ∪ ·) ∅ = _
    rw [hfold, ← runUniqB_flatten]
  · intro sc parts parts' hperm hwt
    refine ⟨parts'.map (fun p => (p.map (countDeltaB sc)).sum), ?_, ?_⟩
    · rw [List.map_map]
      apply (map_congr_iff _ _ _).mpr
      intro p hp
      have hwp : ∀ b ∈ p, WellTypedB b := by
        intro b hb
        exact hwt b (List.mem_flatten.mpr ⟨p, (hperm.mem_iff).mpr hp, hb⟩)
      rw [runCountB_sum sc p 0 hwp]
      simp
    · rw [runCountB_sum sc parts.flatten 0 hwt]
      show _ = some ((parts'.map (fun p => (p.map (countDeltaB sc)).sum)).foldl (· + ·) 0)
      rw [foldl_add_acc _ 0]
      congr 1
      have h1 : parts.flatten.map (countDeltaB sc)
          = (parts.map (List.map (countDeltaB sc))).flatten := by
        rw [List.map_flatten]
      have h2 : (parts.map (fun p => (p.map (countDeltaB sc)).sum)).Perm
          (parts'.map (fun p => (p.map (countDeltaB sc)).sum)) := hperm.map _
      rw [h1, List.sum_flatten, List.map_map]
      have h3 : (parts.map (List.sum ∘ List.map (countDeltaB sc)))
          = parts.map (fun p => (p.map (countDeltaB sc)).sum) := rfl
      rw [h3, h2.sum_eq]

/-- Witness for C7: the partition conjuncts at a concrete two-part
partition and its swap. -/
theorem C7_merge_assoc_comm_witness :
    (([[c1Block2], [c1Block1]].map (fun p => runUniqB c1Uniq p ∅)).foldl mergeUniqB ∅
       = runUniqB c1Uniq [[c1Block1], [c1Block2]].flatten ∅) ∧
    (∃ ns : List Nat,
       [[c1Block2], [c1Block1]].map (fun p => runCountB ⟨[[97]], false⟩ p 0) = ns.map some ∧
       runCountB ⟨[[97]], false⟩ [[c1Block1], [c1Block2]].flatten 0
         = some (ns.foldl mergeCountB 0)) :=
  ⟨C7_merge_assoc_comm.2.2.2.2.2.1 c1Uniq [[c1Block1], [c1Block2]] [[c1Block2], [c1Block1]]
     (by decide),
   C7_merge_assoc_comm.2.2.2.2.2.2 ⟨[[97]], false⟩ [[c1Block1], [c1Block2]]
     [[c1Block2], [c1Block1]] (by decide) (by decide)⟩

theorem KeysOKA_mapUpd (byFields : List Bytes) (m : MapA) (k : Bytes)
    (fresh : GroupA) (upd : GroupA → GroupA) (hm : KeysOKA byFields m)
    (hk : ∃ vs : List Bytes, vs.length = byFields.length ∧ k = encodeTuple vs) :
    KeysOKA byFields (mapUpd m k fresh upd) := by
  unfold mapUpd
  cases hfind : m.find? (fun p => p.1 == k) with
  | some q =>
    intro p hp
    rw [List.mem_map] at hp
    obtain ⟨q2, hq2, hpe⟩ := hp
    by_cases he : (q2.1 == k) = true
    · rw [if_pos he] at hpe
      obtain ⟨vs, hl, hkey⟩ := hm q2 hq2
      exact ⟨vs, hl, by rw [← hpe]; exact hkey⟩
    · rw [if_neg he] at hpe
      rw [← hpe]
      exact hm q2 hq2
  | none =>
    intro p hp
    rw [List.mem_append] at hp
    rcases hp with hp | hp
    · exact hm p hp
    · rw [List.mem_singleton] at hp
      rw [hp]
      exact hk

theorem KeysOKA_writeRows (byFields : List Bytes) (funcs : List StatsFn)
    (cols : List BlockColumn) :
    ∀ (idxs : List Nat) (shard : MapA), KeysOKA byFields shard →
      KeysOKA byFields (idxs.foldl (fun sh i =>
        mapUpd sh (encodeTuple (projRowA byFields cols i)) (newGroup funcs)
          (fun g => List.zipWith (fun fn s => stateUpdateRow fn cols i s) funcs g))
        shard) := by
  intro idxs
  induction idxs with
  | nil => exact fun shard h => h
  | cons i t ih =>
    intro shard h
    rw [List.foldl_cons]
    apply ih
    apply KeysOKA_mapUpd _ _ _ _ _ h
    exact ⟨projRowA byFields cols i, by simp [projRowA], rfl⟩

theorem KeysOKA_writeBlockA (byFields : List Bytes) (funcs : List StatsFn)
    (shard : MapA) (ts : List Int) (cols : List BlockColumn)
    (hm : KeysOKA byFields shard) :
    KeysOKA byFields (writeBlockA byFields funcs shard ts cols) := by
  unfold writeBlockA
  by_cases hE : byFields.isEmpty = true
  · rw [if_pos hE]
    apply KeysOKA_mapUpd _ _ _ _ _ hm
    refine ⟨[], ?_, rfl⟩
    rw [List.isEmpty_iff.mp hE]
  · rw [if_neg hE]
    exact KeysOKA_writeRows byFields funcs cols _ shard hm

theorem getD_mem_or (l : List MapA) (i : Nat) :
    l.getD i [] ∈ l ∨ l.getD i [] = [] := by
  by_cases h : i < l.length
  · left
    rw [List.getD_eq_getElem l [] h]
    exact List.getElem_mem h
  · right
    exact List.getD_eq_default _ _ (Nat.le_of_not_lt h)

theorem KeysOKA_shards (byFields : List Bytes) (funcs : List StatsFn) :
    ∀ (input : List (Nat × BlockA)) (shards : List MapA),
      (∀ s ∈ shards, KeysOKA byFields s) →
      ∀ s ∈ input.foldl (fun sh e => writeBlockTop byFields funcs sh e.1 e.2) shards,
        KeysOKA byFields s := by
  intro input
  induction input with
  | nil => exact fun shards h => h
  | cons e t ih =>
    intro shards h
    rw [List.foldl_cons]
    apply ih
    intro s hs
    unfold writeBlockTop at hs
    rcases List.mem_or_eq_of_mem_set hs with hs | hs
    · exact h s hs
    · rw [hs]
      apply KeysOKA_writeBlockA
      rcases getD_mem_or shards e.1 with hmem | hnil
      · exact h _ hmem
      · rw [hnil]
        intro p hp
        cases hp

theorem KeysOKA_mergeStep (byFields : List Bytes) (dst : MapA) (p : Bytes × GroupA)
    (hdst : KeysOKA byFields dst)
    (hp : ∃ vs : List Bytes, vs.length = byFields.length ∧ p.1 = encodeTuple vs) :
    KeysOKA byFields
      (match dst.find? (fun q => q.1 == p.1) with
       | some _ => dst.map (fun q => if q.1 == p.1 then (q.1, mergeGroupA q.2 p.2) else q)
       | none => dst ++ [p]) := by
  cases hfind : dst.find? (fun q => q.1 == p.1) with
  | some q =>
    intro q2 hq2
    rw [List.mem_map] at hq2
    obtain ⟨q3, hq3, hq2e⟩ := hq2
    by_cases he : (q3.1 == p.1) = true
    · rw [if_pos he] at hq2e
      obtain ⟨vs, hl, hkey⟩ := hdst q3 hq3
      exact ⟨vs, hl, by rw [← hq2e]; exact hkey⟩
    · rw [if_neg he] at hq2e
      rw [← hq2e]
      exact hdst q3 hq3
  | none =>
    intro q2 hq2
    rw [List.mem_append] at hq2
    rcases hq2 with hq2 | hq2
    · exact hdst q2 hq2
    · rw [List.mem_singleton] at hq2
      rw [hq2]
      exact hp

theorem KeysOKA_mergeMapA (byFields : List Bytes) :
    ∀ (src dst : MapA), KeysOKA byFields dst → KeysOKA byFields src →
      KeysOKA byFields (mergeMapA dst src) := by
  intro src
  induction src with
  | nil => exact fun dst h _ => h
  | cons p t ih =>
    intro dst hdst hsrc
    show KeysOKA byFields (t.foldl _ _)
    apply ih
    · exact KeysOKA_mergeStep byFields dst p hdst (hsrc p (by simp))
    · intro q hq
      exact hsrc q (by simp [hq])

theorem KeysOKA_foldMerge (byFields : List Bytes) :
    ∀ (rest : List MapA) (m0 : MapA), KeysOKA byFields m0 →
      (∀ s ∈ rest, KeysOKA byFields s) →
      KeysOKA byFields (rest.foldl mergeMapA m0) := by
  intro rest
  induction rest with
  | nil => exact fun m0 h _ => h
  | cons m1 t ih =>
    intro m0 h0 hrest
    rw [List.foldl_cons]
    apply ih
    · exact KeysOKA_mergeMapA byFields m1 m0 h0 (hrest m1 (by simp))
    · intro s hs
      exact hrest s (by simp [hs])

theorem KeysOKA_mergedAndSynth (byFields : List Bytes) (funcs : List StatsFn)
    (shards : List MapA) (mm : MapA)
    (hsh : ∀ s ∈ shards, KeysOKA byFields s)
    (h : mergedAndSynth byFields funcs shards = some mm) : KeysOKA byFields mm := by
  unfold mergedAndSynth at h
  cases shards with
  | nil => cases h
  | cons m0 rest =>
    dsimp only at h
    by_cases hc : (byFields.isEmpty && (rest.foldl mergeMapA m0).isEmpty) = true
    · rw [if_pos hc] at h
      cases rest with
      | nil => cases h
      | cons m1 r2 =>
        have hmm := Option.some_inj.mp h
        rw [← hmm]
        apply KeysOKA_mapUpd
        · exact hsh m1 (by simp)
        · have hbf : byFields = [] :=
            List.isEmpty_iff.mp ((Bool.and_eq_true _ _).mp hc).1
          exact ⟨[], by simp [hbf], rfl⟩
    · rw [if_neg hc] at h
      have hmm := Option.some_inj.mp h
      rw [← hmm]
      apply KeysOKA_foldMerge
      · exact hsh m0 (by simp)
      · intro s hs
        exact hsh s (by simp [hs])

theorem emitRows_isSome (byFields : List Bytes) (funcs : List StatsFn) :
    ∀ (m : MapA), KeysOKA byFields m → (emitRows byFields funcs m).isSome := by
  intro m
  induction m with
  | nil => intro _; rfl
  | cons p t ih =>
    intro h
    obtain ⟨vs, hl, hk⟩ := h p (by simp)
    have hrow : emitRow byFields funcs p.1 p.2
        = some (byFields.zip vs
            ++ List.zipWith (fun fn s => stateFinalize fn s) funcs p.2) := by
      unfold emitRow
      rw [hk, unmarshalAll_encodeTuple]
      show (if (vs.length == byFields.length) = true
            then some (byFields.zip vs
              ++ List.zipWith (fun fn s => stateFinalize fn s) funcs p.2)
            else none) = _
      rw [if_pos (by simp [hl])]
    show (match emitRow byFields funcs p.1 p.2 with
          | none => none
          | some r => (emitRows byFields funcs t).map (r :: ·)).isSome
    rw [hrow]
    show ((emitRows byFields funcs t).map _).isSome
    have iht := ih (fun q hq => h q (by simp [hq]))
    cases hres : emitRows byFields funcs t with
    | none =>
      rw [hres] at iht
      simp at iht
    | some rs =>
      rfl

/-- C9: the internal-invariant panic branches are unreachable under the
stated contracts. First, on any pipeline state produced by writeBlock calls,
the merged (and possibly synthesized) group map always emits successfully:
every group key unmarshals without error into exactly `len(byFields)`
values. Second, the count processor's unknown-valueType panics (block-wise
and row-wise) are unreachable whenever every column of the block carries a
documented value type (const and time columns short-circuit earlier). -/
theorem C9_no_panic :
    (∀ (byFields : List Bytes) (funcs : List StatsFn) (w : Nat)
        (input : List (Nat × BlockA)) (mm : MapA),
       mergedAndSynth byFields funcs (runPipelineA w byFields funcs input) = some mm →
       (emitRows byFields funcs mm).isSome) ∧
    (∀ (sc : statsCount) (br : blockResult) (n : Nat), WellTypedB br →
       (updateAllCountB sc br n).isSome) ∧
    (∀ (sc : statsCount) (br : blockResult) (r n : Nat), WellTypedB br →
       (updateRowCountB sc br r n).isSome) := by
  refine ⟨?_, ?_, ?_⟩
  · intro byFields funcs w input mm hmm
    apply emitRows_isSome
    apply KeysOKA_mergedAndSynth byFields funcs _ mm _ hmm
    apply KeysOKA_shards byFields funcs input (initShardsA w)
    intro s hs
    rw [List.eq_of_mem_replicate hs]
    intro p hp
    cases hp
  · exact fun sc br n h => updateAllCountB_isSome sc br n h
  · exact fun sc br r n h => updateRowCountB_isSome sc br r n h

/-- Witness for C9: the emit phase succeeds on the merged map of a concrete
empty-input run with two workers, and the count processor succeeds on a
concrete well-typed block. -/
theorem C9_no_panic_witness :
    (emitRows [] c4Funcs [([], [StatsFnState.count 0])]).isSome ∧
    (updateAllCountB ⟨[[97]], false⟩ ⟨[0], []⟩ 0).isSome ∧
    (updateRowCountB ⟨[[97]], false⟩ ⟨[0], []⟩ 0 0).isSome :=
  ⟨C9_no_panic.1 [] c4Funcs 2 [] [([], [StatsFnState.count 0])] (by decide),
   C9_no_panic.2.1 ⟨[[97]], false⟩ ⟨[0], []⟩ 0 (by decide),
   C9_no_panic.2.2 ⟨[[97]], false⟩ ⟨[0], []⟩ 0 0 (by decide)⟩

theorem range_map_getD {α : Type} (l : List α) (d : α) :
    (List.range l.length).map (fun i => l.getD i d) = l := by
  apply List.ext_getElem
  · simp
  · intro i h1 h2
    simp [List.getD_eq_getElem?_getD, List.getElem?_eq_getElem h2]

theorem range_filterMap_getD {α β : Type} (l : List α) (d : α) (g : α → Option β) :
    (List.range l.length).filterMap (fun i => g (l.getD i d)) = l.filterMap g := by
  conv_rhs => rw [← range_map_getD l d]
  rw [List.filterMap_map]
  rfl

theorem filterMap_congr_fn {α β : Type} {f g : α → Option β} (l : List α)
    (h : ∀ a ∈ l, f a = g a) : l.filterMap f = l.filterMap g := by
  induction l with
  | nil => rfl
  | cons x t ih =>
    rw [List.filterMap_cons, List.filterMap_cons, h x (by simp),
      ih (fun a ha => h a (by simp [ha]))]

theorem foldl_insert_nonempty (l : List Bytes) :
    ∀ m : Finset Bytes,
      l.foldl (fun s v => if v == [] then s else insert v s) m
        = m ∪ (l.filter (fun v => !(v == []))).toFinset := by
  induction l with
  | nil => intro m; simp
  | cons x t ih =>
    intro m
    rw [List.foldl_cons]
    by_cases hx : (x == []) = true
    · rw [if_pos hx, ih]
      have hfil : (x :: t).filter (fun v => !(v == []))
          = t.filter (fun v => !(v == [])) := by
        rw [List.filter_cons, show (!(x == [])) = false by rw [hx]; rfl]
        exact if_neg (by simp)
      rw [hfil]
    · have hx' : (x == []) = false := by
        revert hx
        cases (x == []) <;> simp
      rw [if_neg hx, ih]
      have hfil : (x :: t).filter (fun v => !(v == []))
          = x :: t.filter (fun v => !(v == [])) := by
        rw [List.filter_cons, show (!(x == [])) = true by rw [hx']; rfl]
        exact if_pos rfl
      rw [hfil, List.toFinset_cons, Finset.insert_union, Finset.union_insert]

theorem foldl_pair_m (P : Nat → Bool) (key : Nat → Bytes) :
    ∀ (l : List Nat) (st : SfuState),
      ((l.foldl (fun s x =>
          ({ m := if P x then s.m else insert (key x) s.m,
             keyBuf := key x } : SfuState)) st)).m
      = l.foldl (fun m x => if P x then m else insert (key x) m) st.m := by
  intro l
  induction l with
  | nil => intro st; rfl
  | cons x t ih =>
    intro st
    rw [List.foldl_cons, List.foldl_cons, ih]

theorem foldl_if_insert (P : Nat → Bool) (key : Nat → Bytes) (l : List Nat)
    (m : Finset Bytes) :
    l.foldl (fun m x => if P x then m else insert (key x) m) m
      = m ∪ (l.filterMap (fun x => if P x then none else some (key x))).toFinset := by
  have hbody : ∀ (s : Finset Bytes) (x : Nat),
      (if P x then s else insert (key x) s)
        = insOpt s (if P x then none else some (key x)) := by
    intro s x
    by_cases h : P x = true
    · rw [if_pos h, if_pos h]
      rfl
    · rw [if_neg h, if_neg h]
      rfl
  rw [foldl_fun_congr _ _ _ _ hbody]
  exact foldl_insOpt (fun x => if P x then none else some (key x)) l m

theorem findIdx?_lt_length {α : Type} (p : α → Bool) (l : List α) (i : Nat)
    (h : l.findIdx? p = some i) : i < l.length := by
  obtain ⟨hlt, -⟩ := List.findIdx?_eq_some_iff_getElem.mp h
  exact hlt

theorem sfuUpdateAllRows_m (sfu : statsFuncUniq) (b : BlockA) (st : SfuState)
    (hwf : WellFormedA b) :
    (sfuUpdateAllRows sfu b.timestamps b.columns st).m
      = st.m ∪ ((blockProjListA sfu.fields b).map (encodeKeyA sfu.fields)).toFinset := by
  unfold sfuUpdateAllRows
  by_cases hL : (sfu.fields.length == 1) = true
  · rw [if_pos hL]
    obtain ⟨f, hf⟩ := List.length_eq_one.mp (by simpa using hL)
    have hhead : sfu.fields.headD [] = f := by rw [hf]; rfl
    have hcondrw : ∀ (cols : List BlockColumn) (i : Nat),
        ((projRowA sfu.fields cols i).all (· == []))
          = (colValueA cols f i == []) := by
      intro cols i
      rw [hf]
      simp [projRowA]
    cases hidx : getBlockColumnIndex b.columns (sfu.fields.headD []) with
    | none =>
      show st.m = _
      have hproj : blockProjListA sfu.fields b = [] := by
        unfold blockProjListA
        rw [List.filterMap_eq_nil_iff]
        intro i _
        rw [if_pos ?hcnd]
        case hcnd =>
          rw [hcondrw]
          have hcv : colValueA b.columns f i = [] := by
            unfold colValueA
            rw [← hhead, hidx]
          rw [hcv]
          rfl
      rw [hproj]
      simp
    | some idx =>
      show (b.columns.getD idx default).values.foldl
          (fun s v => if v == [] then s else insert v s) st.m = _
      rw [foldl_insert_nonempty]
      congr 1
      have hcv : ∀ i, colValueA b.columns f i
          = (b.columns.getD idx default).values.getD i [] := by
        intro i
        unfold colValueA
        rw [← hhead, hidx]
      have hlen : (b.columns.getD idx default).values.length = b.timestamps.length := by
        apply hwf
        have hlt : idx < b.columns.length := findIdx?_lt_length _ b.columns idx hidx
        rw [List.getD_eq_getElem b.columns default hlt]
        exact List.getElem_mem hlt
      have hproj : blockProjListA sfu.fields b
          = ((b.columns.getD idx default).values.filter (fun v => !(v == []))).map
              (fun v => [v]) := by
        unfold blockProjListA
        have hfn : ∀ i ∈ List.range b.timestamps.length,
            (if (projRowA sfu.fields b.columns i).all (· == []) then none
             else some (projRowA sfu.fields b.columns i))
            = (if ((b.columns.getD idx default).values.getD i [] == []) then none
               else some [(b.columns.getD idx default).values.getD i []]) := by
          intro i _
          rw [hcondrw, hcv]
          by_cases hv : ((b.columns.getD idx default).values.getD i [] == []) = true
          · rw [if_pos hv, if_pos hv]
          · rw [if_neg hv, if_neg hv, hf]
            show some [colValueA b.columns f i] = _
            rw [hcv]
        rw [filterMap_congr_fn _ hfn]
        rw [← hlen,
          range_filterMap_getD (b.columns.getD idx default).values []
            (fun v => if (v == []) then none else some [v])]
        rw [filter_map_filterMap]
      rw [hproj, List.map_map]
      have hmap : ((b.columns.getD idx default).values.filter
            (fun v => !(v == []))).map (encodeKeyA sfu.fields ∘ fun v => [v])
          = ((b.columns.getD idx default).values.filter
            (fun v => !(v == []))).map (fun v => v) := by
        apply (map_congr_iff _ _ _).mpr
        intro v _
        show encodeKeyA sfu.fields [v] = v
        rw [encodeKeyA, if_pos hL]
        rfl
      rw [hmap]
      have hid : ((b.columns.getD idx default).values.filter
            (fun v => !(v == []))).map (fun v => v)
          = (b.columns.getD idx default).values.filter (fun v => !(v == [])) := by
        simp
      rw [hid]
  · rw [if_neg hL]
    show ((List.range b.timestamps.length).foldl (fun s i =>
        ({ m := if (projRowA sfu.fields b.columns i).all (· == []) then s.m
                else insert (encodeTuple (projRowA sfu.fields b.columns i)) s.m,
           keyBuf := encodeTuple (projRowA sfu.fields b.columns i) } : SfuState)) st).m = _
    rw [foldl_pair_m (fun i => (projRowA sfu.fields b.columns i).all (· == []))
          (fun i => encodeTuple (projRowA sfu.fields b.columns i))]
    rw [foldl_if_insert]
    congr 1
    unfold blockProjListA
    rw [List.map_filterMap]
    congr 1
    apply filterMap_congr_fn
    intro i _
    by_cases hP : ((projRowA sfu.fields b.columns i).all (· == [])) = true
    · rw [if_pos hP, if_pos hP]
      rfl
    · rw [if_neg hP, if_neg hP]
      show some (encodeTuple _) = some (encodeKeyA sfu.fields _)
      rw [encodeKeyA, if_neg hL]

theorem runUniqA_m (sfu : statsFuncUniq) :
    ∀ (blocks : List BlockA) (st : SfuState), (∀ b ∈ blocks, WellFormedA b) →
      (runUniqA sfu blocks st).m
        = st.m ∪ ((blocks.map (blockProjListA sfu.fields)).flatten.map
            (encodeKeyA sfu.fields)).toFinset := by
  intro blocks
  induction blocks with
  | nil =>
    intro st _
    simp [runUniqA]
  | cons b t ih =>
    intro st h
    show (runUniqA sfu t (sfuUpdateAllRows sfu b.timestamps b.columns st)).m = _
    rw [ih _ (fun b2 hb => h b2 (by simp [hb]))]
    rw [sfuUpdateAllRows_m sfu b st (h b (by simp))]
    rw [List.map_cons, List.flatten_cons, List.map_append, List.toFinset_append]
    rw [Finset.union_assoc]

theorem list_toFinset_map {α β : Type} [DecidableEq α] [DecidableEq β]
    (f : α → β) (l : List α) : (l.map f).toFinset = l.toFinset.image f := by
  induction l with
  | nil => simp
  | cons x t ih => simp [ih]

theorem mem_projSetA_length (fields : List Bytes) (blocks : List BlockA)
    (vs : List Bytes) (h : vs ∈ projSetA fields blocks) : vs.length = fields.length := by
  rw [projSetA, List.mem_toFinset, List.mem_flatten] at h
  obtain ⟨l, hl, hvs⟩ := h
  rw [List.mem_map] at hl
  obtain ⟨b, _, hbl⟩ := hl
  rw [← hbl] at hvs
  rw [blockProjListA, List.mem_filterMap] at hvs
  obtain ⟨i, _, hsome⟩ := hvs
  by_cases hP : ((projRowA fields b.columns i).all (· == [])) = true
  · rw [if_pos hP] at hsome
    cases hsome
  · rw [if_neg hP] at hsome
    rw [← Option.some_inj.mp hsome]
    simp [projRowA]

/-- C1 (amended): for the BlockColumn-boundary uniq processor
(`statsFuncUniqProcessor`), over any sequence of well-formed blocks fed via
updateStatsForAllRows, the key-set cardinality that finalizeStats renders
equals the exact cardinality of the set of distinct projections of the input
rows onto the named fields (missing fields project to the empty string),
where rows whose projection is empty in every field are excluded. -/
theorem C1_amended (sfu : statsFuncUniq) (blocks : List BlockA)
    (h : ∀ b ∈ blocks, WellFormedA b) :
    (runUniqA sfu blocks ⟨∅, []⟩).m.card = (projSetA sfu.fields blocks).card := by
  rw [runUniqA_m sfu blocks ⟨∅, []⟩ h]
  show (∅ ∪ ((blocks.map (blockProjListA sfu.fields)).flatten.map
      (encodeKeyA sfu.fields)).toFinset).card = _
  rw [Finset.empty_union, list_toFinset_map]
  show ((projSetA sfu.fields blocks).image (encodeKeyA sfu.fields)).card = _
  apply Finset.card_image_of_injOn
  intro a ha b hb heq
  by_cases hL : (sfu.fields.length == 1) = true
  · have h1 : sfu.fields.length = 1 := by simpa using hL
    obtain ⟨x, hx⟩ := List.length_eq_one.mp ((mem_projSetA_length _ _ _ ha).trans h1)
    obtain ⟨y, hy⟩ := List.length_eq_one.mp ((mem_projSetA_length _ _ _ hb).trans h1)
    rw [hx, hy] at heq ⊢
    rw [encodeKeyA, if_pos hL, encodeKeyA, if_pos hL] at heq
    rw [show ([x] : List Bytes).headD [] = x from rfl,
      show ([y] : List Bytes).headD [] = y from rfl] at heq
    rw [heq]
  · rw [encodeKeyA, if_neg hL, encodeKeyA, if_neg hL] at heq
    exact encodeTuple_injective heq

/-- Witness for C1 (amended): `uniq(b, c)` over one well-formed two-row
block with identical rows. -/
theorem C1_amended_witness :
    ((∀ b ∈ [c3Block1], WellFormedA b) ∧
     (runUniqA c10Uniq [c3Block1] ⟨∅, []⟩).m.card
       = (projSetA c10Uniq.fields [c3Block1]).card) :=
  ⟨by decide, C1_amended c10Uniq [c3Block1] (by decide)⟩

end VLStats
